import Mathlib

/-!
Verification of the `serde-arc-value` value model and deduplication engine
(`src/lib.rs`): a shallow embedding of the `Value` enum, its
`PartialEq`/`Ord`/`Hash` implementations, and the `Dedup` canonicalization
context, together with proofs of the spec-level properties (total order
consistency, discriminant separation, float total order, dedup soundness,
idempotence, sharing, collection order-sensitivity, scalar passthrough, and
the `Value::map` constructor invariants).

Modelling conventions:
* Rust machine integers are carried as `Nat`/`Int`; none of the verified
  properties depend on width-induced overflow, and every theorem proved over
  the unbounded carriers holds a fortiori over the bounded ones.
* `f32`/`f64` are carried as their bit patterns (`Fin (2 ^ 32)` /
  `Fin (2 ^ 64)`), and the `ordered_float` wrapper used by the source is
  modelled bit-exactly in terms of the IEEE sign/exponent/mantissa fields.
* `Arc<T>` is modelled as a pair of an identity token (`Nat`) and the
  payload; `Arc::ptr_eq` is equality of identity tokens, while all
  comparisons dereference to the payload exactly as Rust's `Arc` impls do.
* `Hash` is modelled by the sequence of primitive values written to the
  hasher (up to the injective per-write encodings), so two values get equal
  hashes under every hasher iff they produce the same write trace.
-/

/-- Rust `Ord::cmp` for scalar types with a total order
(the `compareOfLessAndEq` shape: `Less` / `Equal` / `Greater`). -/
def scmp {α : Type} [LT α] [DecidableEq α] [∀ a b : α, Decidable (a < b)] (a b : α) : Ordering :=
  if a < b then .lt else if a = b then .eq else .gt

theorem scmp_eq_iff {α : Type} [LinearOrder α] (a b : α) : scmp a b = .eq ↔ a = b := by
  unfold scmp
  split
  · next h => simp only [reduceCtorEq, false_iff]; exact ne_of_lt h
  · split
    · next h => simpa using h
    · next h => simp only [reduceCtorEq, false_iff]; exact h

theorem scmp_lt_iff {α : Type} [LinearOrder α] (a b : α) : scmp a b = .lt ↔ a < b := by
  unfold scmp
  split
  · next h => simpa using h
  · next h =>
    split <;> simp only [reduceCtorEq, false_iff] <;> exact h

theorem scmp_self {α : Type} [LinearOrder α] (a : α) : scmp a a = .eq := by
  unfold scmp
  rw [if_neg (lt_irrefl a), if_pos rfl]

theorem scmp_swap {α : Type} [LinearOrder α] (a b : α) : scmp a b = (scmp b a).swap := by
  rcases lt_trichotomy a b with h | h | h
  · rw [(scmp_lt_iff a b).mpr h]
    have hg : scmp b a = .gt := by
      unfold scmp
      rw [if_neg (not_lt_of_gt h), if_neg (ne_of_gt h)]
    rw [hg]; rfl
  · subst h
    rw [scmp_self]; rfl
  · rw [(scmp_lt_iff b a).mpr h]
    have hg : scmp a b = .gt := by
      unfold scmp
      rw [if_neg (not_lt_of_gt h), if_neg (ne_of_gt h)]
    rw [hg]; rfl

theorem scmp_gt_iff {α : Type} [LinearOrder α] (a b : α) : scmp a b = .gt ↔ b < a := by
  constructor
  · intro h
    rcases lt_trichotomy a b with h' | h' | h'
    · rw [(scmp_lt_iff a b).mpr h'] at h; exact absurd h (by simp)
    · rw [(scmp_eq_iff a b).mpr h'] at h; exact absurd h (by simp)
    · exact h'
  · intro h
    unfold scmp
    rw [if_neg (not_lt_of_gt h), if_neg (ne_of_gt h)]

theorem scmp_lt_trans {α : Type} [LinearOrder α] {a b c : α}
    (h1 : scmp a b = .lt) (h2 : scmp b c = .lt) : scmp a c = .lt :=
  (scmp_lt_iff a c).mpr (lt_trans ((scmp_lt_iff a b).mp h1) ((scmp_lt_iff b c).mp h2))

/-! ## Bit-level model of IEEE floats and the `ordered_float` wrapper

`w` is the total bit width and `m` the mantissa width (f32: 32/23,
f64: 64/52).  For the signed-magnitude `fKey`, non-NaN IEEE values
(including both zeros and the infinities) are ordered exactly as their
keys are, and equal iff their keys are equal. -/

/-- Exponent field of the bit pattern `b`. -/
def fExpField (w m b : Nat) : Nat := (b / 2 ^ m) % 2 ^ (w - m - 1)

/-- A pattern is NaN iff its exponent field is all ones and its mantissa is nonzero. -/
def fIsNaN (w m b : Nat) : Bool := fExpField w m b == 2 ^ (w - m - 1) - 1 && b % 2 ^ m != 0

/-- Signed-magnitude key of a bit pattern: sign bit decides the sign,
the remaining bits are the magnitude.  Both IEEE zeros map to key `0`. -/
def fKey (w b : Nat) : Int :=
  if b < 2 ^ (w - 1) then (b : Int) else -((b % 2 ^ (w - 1) : Nat) : Int)

/-- `ordered_float`'s `Ord::cmp`: IEEE comparison when neither side is NaN;
otherwise NaN is equal to NaN and greater than every non-NaN value. -/
def ordFloatCmp (w m x y : Nat) : Ordering :=
  if fIsNaN w m x then (if fIsNaN w m y then .eq else .gt)
  else if fIsNaN w m y then .lt
  else scmp (fKey w x) (fKey w y)

/-- `ordered_float`'s `PartialEq::eq`: NaN equals NaN; otherwise IEEE equality. -/
def ordFloatEq (w m x y : Nat) : Bool :=
  if fIsNaN w m x then fIsNaN w m y
  else !fIsNaN w m y && fKey w x == fKey w y

/-- The `u64` that `ordered_float`'s `Hash` writes (`raw_double_bits`), up to
its injective encoding: every NaN collapses to the canonical NaN bits
(modelled `none`), and any non-NaN value is uniquely determined by its
signed-magnitude key (both zeros share key `0`, matching the canonical
zero-bit collapse in the source). -/
def ordFloatHashBits (w m x : Nat) : Option Int :=
  if fIsNaN w m x then none else some (fKey w x)

theorem ordFloatCmp_swap (w m x y : Nat) : ordFloatCmp w m x y = (ordFloatCmp w m y x).swap := by
  unfold ordFloatCmp
  by_cases hx : fIsNaN w m x <;> by_cases hy : fIsNaN w m y <;>
    simp [hx, hy, Ordering.swap]
  exact scmp_swap _ _

theorem ordFloatCmp_eq_substL {w m : Nat} {x y : Nat} (h : ordFloatCmp w m x y = .eq) :
    ∀ z, ordFloatCmp w m y z = ordFloatCmp w m x z := by
  intro z
  unfold ordFloatCmp at *
  by_cases hx : fIsNaN w m x <;> by_cases hy : fIsNaN w m y
  · simp [hx, hy]
  · simp [hx, hy] at h
  · simp [hx, hy] at h
  · simp only [hx, hy, if_false, Bool.false_eq_true] at h ⊢
    rw [(scmp_eq_iff (fKey w x) (fKey w y)).mp h]

theorem ordFloatCmp_lt_trans {w m : Nat} {x y z : Nat}
    (h1 : ordFloatCmp w m x y = .lt) (h2 : ordFloatCmp w m y z = .lt) :
    ordFloatCmp w m x z = .lt := by
  unfold ordFloatCmp at *
  by_cases hx : fIsNaN w m x <;> by_cases hy : fIsNaN w m y <;>
    by_cases hz : fIsNaN w m z <;> simp [hx, hy, hz] at h1 h2 ⊢
  exact scmp_lt_trans h1 h2

theorem ordFloatEq_iff (w m x y : Nat) :
    ordFloatEq w m x y = true ↔ ordFloatCmp w m x y = .eq := by
  unfold ordFloatEq ordFloatCmp
  by_cases hx : fIsNaN w m x <;> by_cases hy : fIsNaN w m y <;>
    simp [hx, hy, scmp_eq_iff]

theorem ordFloatEq_hash_congr {w m x y : Nat} (h : ordFloatEq w m x y = true) :
    ordFloatHashBits w m x = ordFloatHashBits w m y := by
  unfold ordFloatEq at h
  unfold ordFloatHashBits
  by_cases hx : fIsNaN w m x <;> by_cases hy : fIsNaN w m y <;>
    simp [hx, hy] at h ⊢
  exact_mod_cast h

theorem ordFloatEq_refl (w m x : Nat) : ordFloatEq w m x x = true := by
  unfold ordFloatEq
  by_cases hx : fIsNaN w m x <;> simp [hx]

/-- Rust `Ord::cmp for char`: the order of the Unicode scalar values (code
points). -/
def charCmp (x y : Char) : Ordering := scmp x.toNat y.toNat

theorem charCmp_swap (x y : Char) : charCmp x y = (charCmp y x).swap := scmp_swap _ _

theorem charCmp_eq_iff (x y : Char) : charCmp x y = .eq ↔ x = y := by
  unfold charCmp
  rw [scmp_eq_iff]
  exact ⟨fun h => Char.eq_of_val_eq (UInt32.ext h), fun h => h ▸ rfl⟩

theorem charCmp_lt_trans {x y z : Char} (h1 : charCmp x y = .lt) (h2 : charCmp y z = .lt) :
    charCmp x z = .lt := scmp_lt_trans h1 h2

/-! ## Lexicographic comparison of sequences

Rust's `Ord for Vec<T>`/`[T]` compares elementwise and breaks ties by
length; `PartialEq` requires equal lengths and elementwise equality. -/

/-- Rust slice/`Vec` lexicographic `Ord::cmp` with element comparator `f`. -/
def lexCmp {α : Type} (f : α → α → Ordering) : List α → List α → Ordering
  | [], [] => .eq
  | [], _ :: _ => .lt
  | _ :: _, [] => .gt
  | x :: xs, y :: ys =>
    match f x y with
    | .eq => lexCmp f xs ys
    | o => o

/-- Rust slice/`Vec` `PartialEq::eq` with element equality `f`. -/
def lexBeq {α : Type} (f : α → α → Bool) : List α → List α → Bool
  | [], [] => true
  | x :: xs, y :: ys => f x y && lexBeq f xs ys
  | _, _ => false

/-! ## The value model

`Value` from `src/lib.rs`.  Shared (`Arc`-held) payloads carry an identity
token (`Nat`) next to their content; `Arc::ptr_eq` is equality of tokens.
The Rust `KV(Arc<Vec<Value>>, Vec<Value>)` pair inside `Map` is flattened
into the outer `Arc` identity `a`, the key-sequence `Arc` identity `ka`,
the key list `ks` and the value list `vs`. -/

inductive Value where
  | Unit
  | Bool (b : Bool)
  | U8 (n : Nat)
  | U16 (n : Nat)
  | U32 (n : Nat)
  | U64 (n : Nat)
  | I8 (n : Int)
  | I16 (n : Int)
  | I32 (n : Int)
  | I64 (n : Int)
  | F32 (x : Fin (2 ^ 32))
  | F64 (x : Fin (2 ^ 64))
  | Char (c : Char)
  | Option (v : Option Value)
  | Newtype (v : Value)
  | String (a : Nat) (s : List Char)
  | Bytes (a : Nat) (b : List Nat)
  | Seq (a : Nat) (s : List Value)
  | Map (a ka : Nat) (ks vs : List Value)

/-- `Value::discriminant`: the fixed variant rank used as the cross-variant
tie-break in `Ord for Value`. -/
def Value.discriminant : Value → Nat
  | .Bool _ => 0
  | .U8 _ => 1
  | .U16 _ => 2
  | .U32 _ => 3
  | .U64 _ => 4
  | .I8 _ => 5
  | .I16 _ => 6
  | .I32 _ => 7
  | .I64 _ => 8
  | .F32 _ => 9
  | .F64 _ => 10
  | .Char _ => 11
  | .String _ _ => 12
  | .Unit => 13
  | .Option _ => 14
  | .Newtype _ => 15
  | .Seq _ _ => 16
  | .Map _ _ _ _ => 17
  | .Bytes _ _ => 18

mutual
/-- `Ord::cmp for Value`: matching variants delegate to the payload's natural
order (`ordered_float` for floats, lexicographic for strings, byte blobs and
sequences, field-lexicographic for the `KV` pair of a collection, `None <
Some` for optionals); mismatched variants compare by discriminant rank.
`Arc`ed payloads compare by content (`Arc: Ord` dereferences). -/
def Value.cmp : Value → Value → Ordering
  | .Bool v0, .Bool v1 => scmp v0 v1
  | .U8 v0, .U8 v1 => scmp v0 v1
  | .U16 v0, .U16 v1 => scmp v0 v1
  | .U32 v0, .U32 v1 => scmp v0 v1
  | .U64 v0, .U64 v1 => scmp v0 v1
  | .I8 v0, .I8 v1 => scmp v0 v1
  | .I16 v0, .I16 v1 => scmp v0 v1
  | .I32 v0, .I32 v1 => scmp v0 v1
  | .I64 v0, .I64 v1 => scmp v0 v1
  | .F32 v0, .F32 v1 => ordFloatCmp 32 23 v0.val v1.val
  | .F64 v0, .F64 v1 => ordFloatCmp 64 52 v0.val v1.val
  | .Char v0, .Char v1 => charCmp v0 v1
  | .String _ v0, .String _ v1 => lexCmp charCmp v0 v1
  | .Unit, .Unit => .eq
  | .Option none, .Option none => .eq
  | .Option none, .Option (some _) => .lt
  | .Option (some _), .Option none => .gt
  | .Option (some v0), .Option (some v1) => Value.cmp v0 v1
  | .Newtype v0, .Newtype v1 => Value.cmp v0 v1
  | .Seq _ v0, .Seq _ v1 => Value.cmpList v0 v1
  | .Map _ _ k0 v0, .Map _ _ k1 v1 =>
    match Value.cmpList k0 k1 with
    | .eq => Value.cmpList v0 v1
    | o => o
  | .Bytes _ v0, .Bytes _ v1 => lexCmp scmp v0 v1
  | v0, v1 => scmp v0.discriminant v1.discriminant
/-- `Ord::cmp` on `Vec<Value>` (specialisation of `lexCmp` needed for the
mutual recursion; `cmpList_eq_lexCmp` bridges the two). -/
def Value.cmpList : List Value → List Value → Ordering
  | [], [] => .eq
  | [], _ :: _ => .lt
  | _ :: _, [] => .gt
  | x :: xs, y :: ys =>
    match Value.cmp x y with
    | .eq => Value.cmpList xs ys
    | o => o
end

mutual
/-- Hand-written `PartialEq::eq for Value`: structural equality; matching
variants compare payloads (`ordered_float` semantics for floats, contents
for `Arc`ed payloads, both `KV` fields for collections), mismatched variants
are never equal. -/
def vbeq : Value → Value → Bool
  | .Bool v0, .Bool v1 => v0 == v1
  | .U8 v0, .U8 v1 => v0 == v1
  | .U16 v0, .U16 v1 => v0 == v1
  | .U32 v0, .U32 v1 => v0 == v1
  | .U64 v0, .U64 v1 => v0 == v1
  | .I8 v0, .I8 v1 => v0 == v1
  | .I16 v0, .I16 v1 => v0 == v1
  | .I32 v0, .I32 v1 => v0 == v1
  | .I64 v0, .I64 v1 => v0 == v1
  | .F32 v0, .F32 v1 => ordFloatEq 32 23 v0.val v1.val
  | .F64 v0, .F64 v1 => ordFloatEq 64 52 v0.val v1.val
  | .Char v0, .Char v1 => v0 == v1
  | .String _ v0, .String _ v1 => v0 == v1
  | .Unit, .Unit => true
  | .Option none, .Option none => true
  | .Option (some v0), .Option (some v1) => vbeq v0 v1
  | .Newtype v0, .Newtype v1 => vbeq v0 v1
  | .Seq _ v0, .Seq _ v1 => vbeqList v0 v1
  | .Map _ _ k0 v0, .Map _ _ k1 v1 => vbeqList k0 k1 && vbeqList v0 v1
  | .Bytes _ v0, .Bytes _ v1 => v0 == v1
  | _, _ => false
/-- `PartialEq::eq` on `Vec<Value>` (specialisation of `lexBeq`;
`beqList_eq_lexBeq` bridges the two). -/
def vbeqList : List Value → List Value → Bool
  | [], [] => true
  | x :: xs, y :: ys => vbeq x y && vbeqList xs ys
  | _, _ => false
end

/-- One primitive value written to a `Hasher`, up to the injective encoding
each Rust `Hash` impl uses (`str` writes its bytes plus a `0xff` terminator,
sequence hashes start with a `usize` length prefix, floats write the
`raw_double_bits` `u64` modelled by `ordFloatHashBits`, enum tags write the
discriminant). -/
inductive HToken where
  | usize (n : Nat)
  | u8 (n : Nat)
  | u16 (n : Nat)
  | u32 (n : Nat)
  | u64 (n : Nat)
  | i8 (n : Int)
  | i16 (n : Int)
  | i32 (n : Int)
  | i64 (n : Int)
  | str (s : List Char)
  | fbits (x : Option Int)
deriving DecidableEq

mutual
/-- `Hash for Value`: writes the discriminant first, then the payload via the
payload type's own `Hash` impl (`bool` as a `u8`, `char` as its `u32` code
point, `Option` as tag-then-payload, `Arc`ed payloads by fully dereferenced
content, `Vec`s as length prefix then elements, `KV` as its two fields). -/
def Value.hashTrace : Value → List HToken
  | .Unit => [.usize 13]
  | .Bool v => [.usize 0, .u8 (cond v 1 0)]
  | .U8 v => [.usize 1, .u8 v]
  | .U16 v => [.usize 2, .u16 v]
  | .U32 v => [.usize 3, .u32 v]
  | .U64 v => [.usize 4, .u64 v]
  | .I8 v => [.usize 5, .i8 v]
  | .I16 v => [.usize 6, .i16 v]
  | .I32 v => [.usize 7, .i32 v]
  | .I64 v => [.usize 8, .i64 v]
  | .F32 v => [.usize 9, .fbits (ordFloatHashBits 32 23 v.val)]
  | .F64 v => [.usize 10, .fbits (ordFloatHashBits 64 52 v.val)]
  | .Char v => [.usize 11, .u32 v.toNat]
  | .String _ v => [.usize 12, .str v]
  | .Option none => [.usize 14, .usize 0]
  | .Option (some v) => .usize 14 :: .usize 1 :: Value.hashTrace v
  | .Newtype v => .usize 15 :: Value.hashTrace v
  | .Seq _ v => .usize 16 :: .usize v.length :: Value.hashTraceList v
  | .Map _ _ ks vs =>
    .usize 17 ::
      ((.usize ks.length :: Value.hashTraceList ks) ++
        (.usize vs.length :: Value.hashTraceList vs))
  | .Bytes _ v => .usize 18 :: .usize v.length :: v.map HToken.u8
/-- Concatenated hash writes of the elements of a `Vec<Value>`. -/
def Value.hashTraceList : List Value → List HToken
  | [] => []
  | x :: xs => Value.hashTrace x ++ Value.hashTraceList xs
end

theorem cmpList_eq_lexCmp : ∀ xs ys, Value.cmpList xs ys = lexCmp Value.cmp xs ys := by
  intro xs
  induction xs with
  | nil => intro ys; cases ys <;> rfl
  | cons x xs ih =>
    intro ys
    cases ys with
    | nil => rfl
    | cons y ys =>
      show (match Value.cmp x y with
            | .eq => Value.cmpList xs ys
            | o => o) = _
      rw [ih ys]
      rfl

theorem beqList_eq_lexBeq : ∀ xs ys, vbeqList xs ys = lexBeq vbeq xs ys := by
  intro xs
  induction xs with
  | nil => intro ys; cases ys <;> rfl
  | cons x xs ih =>
    intro ys
    cases ys with
    | nil => rfl
    | cons y ys =>
      show (vbeq x y && vbeqList xs ys) = _
      rw [ih ys]
      rfl

/-! ## Total-order consistency of `Value.cmp` / `vbeq` / `hashTrace` -/

theorem vcmp_cross (a b : Value) (h : a.discriminant ≠ b.discriminant) :
    Value.cmp a b = scmp a.discriminant b.discriminant := by
  cases a <;> cases b <;>
    first
      | rfl
      | (exact absurd rfl h)
      | (rename_i o; cases o <;> rfl)
      | (rename_i o x; cases o <;> rfl)
      | (rename_i o x y; cases o <;> rfl)
      | (rename_i o x y z w; cases o <;> rfl)

theorem vbeq_cross (a b : Value) (h : a.discriminant ≠ b.discriminant) :
    vbeq a b = false := by
  cases a <;> cases b <;>
    first
      | rfl
      | (exact absurd rfl h)
      | (rename_i o; cases o <;> rfl)
      | (rename_i o x; cases o <;> rfl)
      | (rename_i o x y; cases o <;> rfl)
      | (rename_i o x y z w; cases o <;> rfl)

/-- Case analysis for a pair of values with equal discriminants: they must be
the same variant. -/
theorem same_disc_elim (motive : Value → Value → Prop) (a b : Value)
    (hd : a.discriminant = b.discriminant)
    (hUnit : motive .Unit .Unit)
    (hBool : ∀ x y, motive (.Bool x) (.Bool y))
    (hU8 : ∀ x y, motive (.U8 x) (.U8 y))
    (hU16 : ∀ x y, motive (.U16 x) (.U16 y))
    (hU32 : ∀ x y, motive (.U32 x) (.U32 y))
    (hU64 : ∀ x y, motive (.U64 x) (.U64 y))
    (hI8 : ∀ x y, motive (.I8 x) (.I8 y))
    (hI16 : ∀ x y, motive (.I16 x) (.I16 y))
    (hI32 : ∀ x y, motive (.I32 x) (.I32 y))
    (hI64 : ∀ x y, motive (.I64 x) (.I64 y))
    (hF32 : ∀ x y, motive (.F32 x) (.F32 y))
    (hF64 : ∀ x y, motive (.F64 x) (.F64 y))
    (hChar : ∀ x y, motive (.Char x) (.Char y))
    (hOption : ∀ x y, motive (.Option x) (.Option y))
    (hNewtype : ∀ x y, motive (.Newtype x) (.Newtype y))
    (hString : ∀ a x b y, motive (.String a x) (.String b y))
    (hBytes : ∀ a x b y, motive (.Bytes a x) (.Bytes b y))
    (hSeq : ∀ a x b y, motive (.Seq a x) (.Seq b y))
    (hMap : ∀ a ka k0 v0 b kb k1 v1, motive (.Map a ka k0 v0) (.Map b kb k1 v1)) :
    motive a b := by
  cases a <;> cases b <;>
    first
      | (simp only [Value.discriminant] at hd; omega)
      | exact hUnit
      | apply hBool
      | apply hU8
      | apply hU16
      | apply hU32
      | apply hU64
      | apply hI8
      | apply hI16
      | apply hI32
      | apply hI64
      | apply hF32
      | apply hF64
      | apply hChar
      | apply hOption
      | apply hNewtype
      | apply hString
      | apply hBytes
      | apply hSeq
      | apply hMap

theorem value_sizeOf_pos (v : Value) : 0 < sizeOf v := by
  cases v <;> simp_arith

theorem lexCmp_swap_of {α : Type} (f : α → α → Ordering) :
    ∀ (xs ys : List α), (∀ x ∈ xs, ∀ y ∈ ys, f x y = (f y x).swap) →
    lexCmp f xs ys = (lexCmp f ys xs).swap := by
  intro xs
  induction xs with
  | nil => intro ys _; cases ys <;> rfl
  | cons x xs ih =>
    intro ys hf
    cases ys with
    | nil => rfl
    | cons y ys =>
      show (match f x y with | .eq => lexCmp f xs ys | o => o) = _
      rw [hf x (by simp) y (by simp)]
      have hrec := ih ys (fun x' hx' y' hy' => hf x' (by simp [hx']) y' (by simp [hy']))
      cases hyx : f y x <;>
        simp only [lexCmp, hyx, Ordering.swap] <;>
        simpa [hyx] using hrec

theorem vcmp_swap_fuel : ∀ (n : Nat) (a b : Value), sizeOf a + sizeOf b ≤ n →
    Value.cmp a b = (Value.cmp b a).swap := by
  intro n
  induction n with
  | zero =>
    intro a b h
    have := value_sizeOf_pos a
    have := value_sizeOf_pos b
    omega
  | succ n ih =>
    intro a b h
    by_cases hd : a.discriminant = b.discriminant
    · revert h
      refine same_disc_elim
        (fun a b => sizeOf a + sizeOf b ≤ n + 1 → Value.cmp a b = (Value.cmp b a).swap)
        a b hd ?_ ?_ ?_ ?_ ?_ ?_ ?_ ?_ ?_ ?_ ?_ ?_ ?_ ?_ ?_ ?_ ?_ ?_ ?_
      · intro _; rfl
      · intro x y _; exact scmp_swap x y
      · intro x y _; exact scmp_swap x y
      · intro x y _; exact scmp_swap x y
      · intro x y _; exact scmp_swap x y
      · intro x y _; exact scmp_swap x y
      · intro x y _; exact scmp_swap x y
      · intro x y _; exact scmp_swap x y
      · intro x y _; exact scmp_swap x y
      · intro x y _; exact scmp_swap x y
      · intro x y _; exact ordFloatCmp_swap 32 23 x.val y.val
      · intro x y _; exact ordFloatCmp_swap 64 52 x.val y.val
      · intro x y _; exact charCmp_swap x y
      · intro x y hs
        cases x with
        | none => cases y with
          | none => rfl
          | some y => rfl
        | some x => cases y with
          | none => rfl
          | some y =>
            refine ih x y ?_
            simp_arith at hs
            omega
      · intro x y hs
        refine ih x y ?_
        simp_arith at hs
        omega
      · intro a x b y _
        exact lexCmp_swap_of charCmp x y (fun _ _ _ _ => charCmp_swap _ _)
      · intro a x b y _
        exact lexCmp_swap_of scmp x y (fun _ _ _ _ => scmp_swap _ _)
      · intro a x b y hs
        show Value.cmpList x y = (Value.cmpList y x).swap
        rw [cmpList_eq_lexCmp, cmpList_eq_lexCmp]
        refine lexCmp_swap_of _ x y ?_
        intro x' hx' y' hy'
        refine ih x' y' ?_
        have h1 := List.sizeOf_lt_of_mem hx'
        have h2 := List.sizeOf_lt_of_mem hy'
        simp_arith at hs
        omega
      · intro a ka k0 v0 b kb k1 v1 hs
        simp_arith at hs
        have hk : Value.cmpList k0 k1 = (Value.cmpList k1 k0).swap := by
          rw [cmpList_eq_lexCmp, cmpList_eq_lexCmp]
          refine lexCmp_swap_of _ k0 k1 ?_
          intro x' hx' y' hy'
          refine ih x' y' ?_
          have h1 := List.sizeOf_lt_of_mem hx'
          have h2 := List.sizeOf_lt_of_mem hy'
          omega
        have hv : Value.cmpList v0 v1 = (Value.cmpList v1 v0).swap := by
          rw [cmpList_eq_lexCmp, cmpList_eq_lexCmp]
          refine lexCmp_swap_of _ v0 v1 ?_
          intro x' hx' y' hy'
          refine ih x' y' ?_
          have h1 := List.sizeOf_lt_of_mem hx'
          have h2 := List.sizeOf_lt_of_mem hy'
          omega
        show (match Value.cmpList k0 k1 with | .eq => Value.cmpList v0 v1 | o => o)
            = (match Value.cmpList k1 k0 with | .eq => Value.cmpList v1 v0 | o => o).swap
        rw [hk, hv]
        cases Value.cmpList k1 k0 <;> rfl
    · rw [vcmp_cross a b hd, vcmp_cross b a (Ne.symm hd), scmp_swap]

/-- Antisymmetry/totality of `Ord::cmp for Value`: comparing in the other
direction gives the reversed `Ordering`. -/
theorem vcmp_swap (a b : Value) : Value.cmp a b = (Value.cmp b a).swap :=
  vcmp_swap_fuel (sizeOf a + sizeOf b) a b le_rfl

theorem lexCmp_eq_substL {α : Type} (f : α → α → Ordering) :
    ∀ (xs ys : List α), lexCmp f xs ys = .eq →
    (∀ x ∈ xs, ∀ y ∈ ys, f x y = .eq → ∀ z, f y z = f x z) →
    ∀ zs, lexCmp f ys zs = lexCmp f xs zs := by
  intro xs
  induction xs with
  | nil =>
    intro ys h _ zs
    cases ys with
    | nil => rfl
    | cons y ys => exact absurd h (by simp [lexCmp])
  | cons x xs ih =>
    intro ys h hf zs
    cases ys with
    | nil => exact absurd h (by simp [lexCmp])
    | cons y ys =>
      have hxy : f x y = .eq := by
        by_contra hne
        have : lexCmp f (x :: xs) (y :: ys) = f x y := by
          show (match f x y with | .eq => lexCmp f xs ys | o => o) = f x y
          cases hfx : f x y <;> simp_all
        rw [this] at h
        exact hne h
      have htail : lexCmp f xs ys = .eq := by
        have : lexCmp f (x :: xs) (y :: ys) = lexCmp f xs ys := by
          show (match f x y with | .eq => lexCmp f xs ys | o => o) = _
          rw [hxy]
        rwa [this] at h
      cases zs with
      | nil => rfl
      | cons z zs =>
        show (match f y z with | .eq => lexCmp f ys zs | o => o)
            = (match f x z with | .eq => lexCmp f xs zs | o => o)
        rw [hf x (by simp) y (by simp) hxy z]
        cases hxz : f x z
        · rfl
        · exact ih ys htail (fun x' hx' y' hy' => hf x' (by simp [hx']) y' (by simp [hy'])) zs
        · rfl

theorem lexCmp_lt_trans {α : Type} (f : α → α → Ordering) :
    ∀ (xs ys zs : List α),
    (∀ x ∈ xs, ∀ y ∈ ys, ∀ z ∈ zs, f x y = .lt → f y z = .lt → f x z = .lt) →
    (∀ x ∈ xs, ∀ y ∈ ys, f x y = .eq → ∀ z, f y z = f x z) →
    (∀ y ∈ ys, ∀ z ∈ zs, f y z = .eq → ∀ x, f x y = f x z) →
    lexCmp f xs ys = .lt → lexCmp f ys zs = .lt → lexCmp f xs zs = .lt := by
  intro xs
  induction xs with
  | nil =>
    intro ys zs _ _ _ hab hbc
    cases ys with
    | nil => exact absurd hab (by simp [lexCmp])
    | cons y ys =>
      cases zs with
      | nil => exact absurd hbc (by simp [lexCmp])
      | cons z zs => rfl
  | cons x xs ih =>
    intro ys zs hlt hsubL hsubR hab hbc
    cases ys with
    | nil => exact absurd hab (by simp [lexCmp])
    | cons y ys =>
      cases zs with
      | nil => exact absurd hbc (by simp [lexCmp])
      | cons z zs =>
        have hab' : f x y = .lt ∨ (f x y = .eq ∧ lexCmp f xs ys = .lt) := by
          have hm : lexCmp f (x :: xs) (y :: ys)
              = (match f x y with | .eq => lexCmp f xs ys | o => o) := rfl
          rw [hm] at hab
          cases hfx : f x y <;> rw [hfx] at hab
          · exact .inl rfl
          · exact .inr ⟨rfl, hab⟩
          · exact absurd hab (by simp)
        have hbc' : f y z = .lt ∨ (f y z = .eq ∧ lexCmp f ys zs = .lt) := by
          have hm : lexCmp f (y :: ys) (z :: zs)
              = (match f y z with | .eq => lexCmp f ys zs | o => o) := rfl
          rw [hm] at hbc
          cases hfy : f y z <;> rw [hfy] at hbc
          · exact .inl rfl
          · exact .inr ⟨rfl, hbc⟩
          · exact absurd hbc (by simp)
        show (match f x z with | .eq => lexCmp f xs zs | o => o) = .lt
        rcases hab' with hxy | ⟨hxy, htl1⟩
        · rcases hbc' with hyz | ⟨hyz, htl2⟩
          · rw [hlt x (by simp) y (by simp) z (by simp) hxy hyz]
          · rw [← hsubR y (by simp) z (by simp) hyz x, hxy]
        · rcases hbc' with hyz | ⟨hyz, htl2⟩
          · rw [← hsubL x (by simp) y (by simp) hxy z, hyz]
          · rw [← hsubL x (by simp) y (by simp) hxy z, hyz]
            exact ih ys zs
              (fun x' hx' y' hy' z' hz' => hlt x' (by simp [hx']) y' (by simp [hy']) z' (by simp [hz']))
              (fun x' hx' y' hy' => hsubL x' (by simp [hx']) y' (by simp [hy']))
              (fun y' hy' z' hz' => hsubR y' (by simp [hy']) z' (by simp [hz']))
              htl1 htl2

theorem vcmp_eq_disc {a b : Value} (h : Value.cmp a b = .eq) :
    a.discriminant = b.discriminant := by
  by_contra hd
  rw [vcmp_cross a b hd] at h
  exact hd ((scmp_eq_iff _ _).mp h)

theorem vcmp_eq_substL_fuel : ∀ (n : Nat) (a b : Value), sizeOf a + sizeOf b ≤ n →
    Value.cmp a b = .eq → ∀ c, Value.cmp b c = Value.cmp a c := by
  intro n
  induction n with
  | zero =>
    intro a b h
    have := value_sizeOf_pos a
    have := value_sizeOf_pos b
    omega
  | succ n ih =>
    intro a b h hab c
    have hd : a.discriminant = b.discriminant := vcmp_eq_disc hab
    by_cases hdc : b.discriminant = c.discriminant
    case neg =>
      rw [vcmp_cross b c hdc, vcmp_cross a c (by rw [hd]; exact hdc), hd]
    case pos =>
      revert h hab hdc
      refine same_disc_elim
        (fun a b => sizeOf a + sizeOf b ≤ n + 1 → Value.cmp a b = .eq →
          b.discriminant = c.discriminant → Value.cmp b c = Value.cmp a c)
        a b hd ?_ ?_ ?_ ?_ ?_ ?_ ?_ ?_ ?_ ?_ ?_ ?_ ?_ ?_ ?_ ?_ ?_ ?_ ?_
      · intro _ _ _; rfl
      · intro x y _ hab _
        have hxy := (scmp_eq_iff x y).mp hab; subst hxy; rfl
      · intro x y _ hab _
        have hxy := (scmp_eq_iff x y).mp hab; subst hxy; rfl
      · intro x y _ hab _
        have hxy := (scmp_eq_iff x y).mp hab; subst hxy; rfl
      · intro x y _ hab _
        have hxy := (scmp_eq_iff x y).mp hab; subst hxy; rfl
      · intro x y _ hab _
        have hxy := (scmp_eq_iff x y).mp hab; subst hxy; rfl
      · intro x y _ hab _
        have hxy := (scmp_eq_iff x y).mp hab; subst hxy; rfl
      · intro x y _ hab _
        have hxy := (scmp_eq_iff x y).mp hab; subst hxy; rfl
      · intro x y _ hab _
        have hxy := (scmp_eq_iff x y).mp hab; subst hxy; rfl
      · intro x y _ hab _
        have hxy := (scmp_eq_iff x y).mp hab; subst hxy; rfl
      · intro x y _ hab hdc
        cases c <;> try (simp only [Value.discriminant] at hdc; omega)
        exact ordFloatCmp_eq_substL hab _
      · intro x y _ hab hdc
        cases c <;> try (simp only [Value.discriminant] at hdc; omega)
        exact ordFloatCmp_eq_substL hab _
      · intro x y _ hab _
        have hxy := (charCmp_eq_iff x y).mp hab; subst hxy; rfl
      · intro x y hs hab hdc
        cases x with
        | none =>
          cases y with
          | none => rfl
          | some y => exact Ordering.noConfusion hab
        | some x =>
          cases y with
          | none => exact Ordering.noConfusion hab
          | some y =>
            cases c <;> try (simp only [Value.discriminant] at hdc; omega)
            rename_i w
            cases w with
            | none => rfl
            | some z =>
              refine ih x y ?_ hab z
              simp_arith at hs
              omega
      · intro x y hs hab hdc
        cases c <;> try (simp only [Value.discriminant] at hdc; omega)
        rename_i z
        refine ih x y ?_ hab z
        simp_arith at hs
        omega
      · intro a1 x b1 y _ hab hdc
        cases c <;> try (simp only [Value.discriminant] at hdc; omega)
        rename_i c1 z
        show lexCmp charCmp y z = lexCmp charCmp x z
        exact lexCmp_eq_substL charCmp x y hab
          (fun x' _ y' _ h' z' => by
            have hxy := (charCmp_eq_iff x' y').mp h'; subst hxy; rfl) z
      · intro a1 x b1 y _ hab hdc
        cases c <;> try (simp only [Value.discriminant] at hdc; omega)
        rename_i c1 z
        show lexCmp scmp y z = lexCmp scmp x z
        exact lexCmp_eq_substL scmp x y hab
          (fun x' _ y' _ h' z' => by
            have hxy := (scmp_eq_iff x' y').mp h'; subst hxy; rfl) z
      · intro a1 x b1 y hs hab hdc
        cases c <;> try (simp only [Value.discriminant] at hdc; omega)
        rename_i c1 z
        have hab' : Value.cmpList x y = .eq := hab
        rw [cmpList_eq_lexCmp] at hab'
        show Value.cmpList y z = Value.cmpList x z
        rw [cmpList_eq_lexCmp, cmpList_eq_lexCmp]
        refine lexCmp_eq_substL _ x y hab' ?_ z
        intro x' hx' y' hy' h' z'
        refine ih x' y' ?_ h' z'
        have h1 := List.sizeOf_lt_of_mem hx'
        have h2 := List.sizeOf_lt_of_mem hy'
        simp_arith at hs
        omega
      · intro a1 ka k0 v0 b1 kb k1 v1 hs hab hdc
        cases c <;> try (simp only [Value.discriminant] at hdc; omega)
        rename_i c1 c2 k2 v2
        have hab' : (match Value.cmpList k0 k1 with
            | .eq => Value.cmpList v0 v1 | o => o) = .eq := hab
        have hk : Value.cmpList k0 k1 = .eq := by
          cases hk0 : Value.cmpList k0 k1 <;> rw [hk0] at hab' <;> simp_all
        have hv : Value.cmpList v0 v1 = .eq := by
          rw [hk] at hab'; exact hab'
        rw [cmpList_eq_lexCmp] at hk hv
        simp_arith at hs
        have e1 : Value.cmpList k1 k2 = Value.cmpList k0 k2 := by
          rw [cmpList_eq_lexCmp, cmpList_eq_lexCmp]
          refine lexCmp_eq_substL _ k0 k1 hk ?_ k2
          intro x' hx' y' hy' h' z'
          refine ih x' y' ?_ h' z'
          have h1 := List.sizeOf_lt_of_mem hx'
          have h2 := List.sizeOf_lt_of_mem hy'
          omega
        have e2 : Value.cmpList v1 v2 = Value.cmpList v0 v2 := by
          rw [cmpList_eq_lexCmp, cmpList_eq_lexCmp]
          refine lexCmp_eq_substL _ v0 v1 hv ?_ v2
          intro x' hx' y' hy' h' z'
          refine ih x' y' ?_ h' z'
          have h1 := List.sizeOf_lt_of_mem hx'
          have h2 := List.sizeOf_lt_of_mem hy'
          omega
        show (match Value.cmpList k1 k2 with | .eq => Value.cmpList v1 v2 | o => o)
            = (match Value.cmpList k0 k2 with | .eq => Value.cmpList v0 v2 | o => o)
        rw [e1, e2]

/-- If two values compare `Equal`, comparing either of them against any third
value gives the same result (left congruence of `Ord::cmp for Value`). -/
theorem vcmp_eq_substL {a b : Value} (h : Value.cmp a b = .eq) (c : Value) :
    Value.cmp b c = Value.cmp a c :=
  vcmp_eq_substL_fuel (sizeOf a + sizeOf b) a b le_rfl h c

theorem ordering_swap_inj {o1 o2 : Ordering} (h : o1.swap = o2.swap) : o1 = o2 := by
  cases o1 <;> cases o2 <;> simp_all [Ordering.swap]

/-- Right congruence, derived from left congruence and the swap law. -/
theorem vcmp_eq_substR {b c : Value} (h : Value.cmp b c = .eq) (a : Value) :
    Value.cmp a b = Value.cmp a c := by
  have hcb : Value.cmp c b = .eq := by
    have := vcmp_swap b c
    rw [h] at this
    exact ordering_swap_inj this.symm
  have := vcmp_eq_substL hcb a
  rw [vcmp_swap a b, vcmp_swap a c]
  rw [vcmp_eq_substL h a]

theorem vcmpList_swap (xs ys : List Value) :
    Value.cmpList xs ys = (Value.cmpList ys xs).swap := by
  rw [cmpList_eq_lexCmp, cmpList_eq_lexCmp]
  exact lexCmp_swap_of _ xs ys (fun x _ y _ => vcmp_swap x y)

theorem vcmpList_eq_substL {xs ys : List Value} (h : Value.cmpList xs ys = .eq)
    (zs : List Value) : Value.cmpList ys zs = Value.cmpList xs zs := by
  rw [cmpList_eq_lexCmp] at h
  rw [cmpList_eq_lexCmp, cmpList_eq_lexCmp]
  exact lexCmp_eq_substL _ xs ys h (fun x _ y _ h' z => vcmp_eq_substL h' z) zs

theorem vcmpList_eq_substR {ys zs : List Value} (h : Value.cmpList ys zs = .eq)
    (xs : List Value) : Value.cmpList xs ys = Value.cmpList xs zs := by
  have hzy : Value.cmpList zs ys = .eq := by
    have := vcmpList_swap ys zs
    rw [h] at this
    exact ordering_swap_inj this.symm
  rw [vcmpList_swap xs ys, vcmpList_swap xs zs, vcmpList_eq_substL h xs]

theorem vcmp_lt_trans_fuel : ∀ (n : Nat) (a b c : Value),
    sizeOf a + sizeOf b + sizeOf c ≤ n →
    Value.cmp a b = .lt → Value.cmp b c = .lt → Value.cmp a c = .lt := by
  intro n
  induction n with
  | zero =>
    intro a b c h _ _
    have := value_sizeOf_pos a
    have := value_sizeOf_pos b
    have := value_sizeOf_pos c
    omega
  | succ n ih =>
    intro a b c h hab hbc
    by_cases h1 : a.discriminant = b.discriminant
    · by_cases h2 : b.discriminant = c.discriminant
      · revert h hab hbc h2
        refine same_disc_elim
          (fun a b => sizeOf a + sizeOf b + sizeOf c ≤ n + 1 → Value.cmp a b = .lt →
            Value.cmp b c = .lt → b.discriminant = c.discriminant → Value.cmp a c = .lt)
          a b h1 ?_ ?_ ?_ ?_ ?_ ?_ ?_ ?_ ?_ ?_ ?_ ?_ ?_ ?_ ?_ ?_ ?_ ?_ ?_
        · intro _ hab _ _; exact Ordering.noConfusion hab
        · intro x y _ hab hbc h2
          cases c <;> try (simp only [Value.discriminant] at h2; omega)
          exact scmp_lt_trans hab hbc
        · intro x y _ hab hbc h2
          cases c <;> try (simp only [Value.discriminant] at h2; omega)
          exact scmp_lt_trans hab hbc
        · intro x y _ hab hbc h2
          cases c <;> try (simp only [Value.discriminant] at h2; omega)
          exact scmp_lt_trans hab hbc
        · intro x y _ hab hbc h2
          cases c <;> try (simp only [Value.discriminant] at h2; omega)
          exact scmp_lt_trans hab hbc
        · intro x y _ hab hbc h2
          cases c <;> try (simp only [Value.discriminant] at h2; omega)
          exact scmp_lt_trans hab hbc
        · intro x y _ hab hbc h2
          cases c <;> try (simp only [Value.discriminant] at h2; omega)
          exact scmp_lt_trans hab hbc
        · intro x y _ hab hbc h2
          cases c <;> try (simp only [Value.discriminant] at h2; omega)
          exact scmp_lt_trans hab hbc
        · intro x y _ hab hbc h2
          cases c <;> try (simp only [Value.discriminant] at h2; omega)
          exact scmp_lt_trans hab hbc
        · intro x y _ hab hbc h2
          cases c <;> try (simp only [Value.discriminant] at h2; omega)
          exact scmp_lt_trans hab hbc
        · intro x y _ hab hbc h2
          cases c <;> try (simp only [Value.discriminant] at h2; omega)
          exact ordFloatCmp_lt_trans hab hbc
        · intro x y _ hab hbc h2
          cases c <;> try (simp only [Value.discriminant] at h2; omega)
          exact ordFloatCmp_lt_trans hab hbc
        · intro x y _ hab hbc h2
          cases c <;> try (simp only [Value.discriminant] at h2; omega)
          exact charCmp_lt_trans hab hbc
        · intro x y hs hab hbc h2
          cases c <;> try (simp only [Value.discriminant] at h2; omega)
          rename_i w
          cases x with
          | none =>
            cases y with
            | none => exact Ordering.noConfusion hab
            | some y =>
              cases w with
              | none => exact Ordering.noConfusion hbc
              | some z => rfl
          | some x =>
            cases y with
            | none => exact Ordering.noConfusion hab
            | some y =>
              cases w with
              | none => exact Ordering.noConfusion hbc
              | some z =>
                refine ih x y z ?_ hab hbc
                simp_arith at hs
                omega
        · intro x y hs hab hbc h2
          cases c <;> try (simp only [Value.discriminant] at h2; omega)
          rename_i z
          refine ih x y z ?_ hab hbc
          simp_arith at hs
          omega
        · intro a1 x b1 y _hs hab hbc h2
          cases c <;> try (simp only [Value.discriminant] at h2; omega)
          rename_i c1 z
          show lexCmp charCmp x z = .lt
          refine lexCmp_lt_trans charCmp x y z ?_ ?_ ?_ hab hbc
          · exact fun _ _ _ _ _ _ ha hb => charCmp_lt_trans ha hb
          · intro x' _ y' _ h' z'
            have hxy := (charCmp_eq_iff x' y').mp h'; subst hxy; rfl
          · intro y' _ z' _ h' x'
            have hyz := (charCmp_eq_iff y' z').mp h'; subst hyz; rfl
        · intro a1 x b1 y _hs hab hbc h2
          cases c <;> try (simp only [Value.discriminant] at h2; omega)
          rename_i c1 z
          show lexCmp scmp x z = .lt
          refine lexCmp_lt_trans scmp x y z ?_ ?_ ?_ hab hbc
          · exact fun _ _ _ _ _ _ ha hb => scmp_lt_trans ha hb
          · intro x' _ y' _ h' z'
            have hxy := (scmp_eq_iff x' y').mp h'; subst hxy; rfl
          · intro y' _ z' _ h' x'
            have hyz := (scmp_eq_iff y' z').mp h'; subst hyz; rfl
        · intro a1 x b1 y hs hab hbc h2
          cases c <;> try (simp only [Value.discriminant] at h2; omega)
          rename_i c1 z
          have hab' : Value.cmpList x y = .lt := hab
          have hbc' : Value.cmpList y z = .lt := hbc
          rw [cmpList_eq_lexCmp] at hab' hbc'
          show Value.cmpList x z = .lt
          rw [cmpList_eq_lexCmp]
          simp_arith at hs
          refine lexCmp_lt_trans _ x y z ?_ ?_ ?_ hab' hbc'
          · intro x' hx' y' hy' z' hz' ha hb
            refine ih x' y' z' ?_ ha hb
            have s1 := List.sizeOf_lt_of_mem hx'
            have s2 := List.sizeOf_lt_of_mem hy'
            have s3 := List.sizeOf_lt_of_mem hz'
            omega
          · exact fun x' _ y' _ h' z' => vcmp_eq_substL h' z'
          · exact fun y' _ z' _ h' x' => vcmp_eq_substR h' x'
        · intro a1 ka k0 v0 b1 kb k1 v1 hs hab hbc h2
          cases c <;> try (simp only [Value.discriminant] at h2; omega)
          rename_i c1 c2 k2 v2
          simp_arith at hs
          have hked : ∀ xs ys zs : List Value,
              (∀ x ∈ xs, sizeOf x < sizeOf k0 + sizeOf v0 + 1) → True := fun _ _ _ _ => trivial
          have hab' : (match Value.cmpList k0 k1 with
              | .eq => Value.cmpList v0 v1 | o => o) = .lt := hab
          have hbc' : (match Value.cmpList k1 k2 with
              | .eq => Value.cmpList v1 v2 | o => o) = .lt := hbc
          have habd : Value.cmpList k0 k1 = .lt ∨
              (Value.cmpList k0 k1 = .eq ∧ Value.cmpList v0 v1 = .lt) := by
            cases hk0 : Value.cmpList k0 k1 <;> rw [hk0] at hab'
            · exact .inl rfl
            · exact .inr ⟨rfl, hab'⟩
            · exact absurd hab' (by simp)
          have hbcd : Value.cmpList k1 k2 = .lt ∨
              (Value.cmpList k1 k2 = .eq ∧ Value.cmpList v1 v2 = .lt) := by
            cases hk1 : Value.cmpList k1 k2 <;> rw [hk1] at hbc'
            · exact .inl rfl
            · exact .inr ⟨rfl, hbc'⟩
            · exact absurd hbc' (by simp)
          have klt : ∀ {xs ys zs : List Value},
              (∀ x ∈ xs, ∀ y ∈ ys, ∀ z ∈ zs,
                sizeOf x + sizeOf y + sizeOf z ≤ n) →
              Value.cmpList xs ys = .lt → Value.cmpList ys zs = .lt →
              Value.cmpList xs zs = .lt := by
            intro xs ys zs hsz ha hb
            rw [cmpList_eq_lexCmp] at ha hb ⊢
            refine lexCmp_lt_trans _ xs ys zs ?_ ?_ ?_ ha hb
            · exact fun x' hx' y' hy' z' hz' ha' hb' => ih x' y' z' (hsz x' hx' y' hy' z' hz') ha' hb'
            · exact fun x' _ y' _ h' z' => vcmp_eq_substL h' z'
            · exact fun y' _ z' _ h' x' => vcmp_eq_substR h' x'
          show (match Value.cmpList k0 k2 with
              | .eq => Value.cmpList v0 v2 | o => o) = .lt
          rcases habd with hk01 | ⟨hk01, hv01⟩
          · rcases hbcd with hk12 | ⟨hk12, hv12⟩
            · have : Value.cmpList k0 k2 = .lt := by
                refine klt ?_ hk01 hk12
                intro x' hx' y' hy' z' hz'
                have s1 := List.sizeOf_lt_of_mem hx'
                have s2 := List.sizeOf_lt_of_mem hy'
                have s3 := List.sizeOf_lt_of_mem hz'
                omega
              rw [this]
            · have : Value.cmpList k0 k2 = .lt := by
                rw [← vcmpList_eq_substR hk12 k0]
                exact hk01
              rw [this]
          · rcases hbcd with hk12 | ⟨hk12, hv12⟩
            · have : Value.cmpList k0 k2 = .lt := by
                rw [← vcmpList_eq_substL hk01 k2]
                exact hk12
              rw [this]
            · have hk02 : Value.cmpList k0 k2 = .eq := by
                rw [← vcmpList_eq_substL hk01 k2]
                exact hk12
              rw [hk02]
              refine klt ?_ hv01 hv12
              intro x' hx' y' hy' z' hz'
              have s1 := List.sizeOf_lt_of_mem hx'
              have s2 := List.sizeOf_lt_of_mem hy'
              have s3 := List.sizeOf_lt_of_mem hz'
              omega
      · rw [vcmp_cross b c h2] at hbc
        have hbclt := (scmp_lt_iff _ _).mp hbc
        have hac : a.discriminant ≠ c.discriminant := by rw [h1]; omega
        rw [vcmp_cross a c hac, h1]
        exact (scmp_lt_iff _ _).mpr hbclt
    · by_cases h2 : b.discriminant = c.discriminant
      · rw [vcmp_cross a b h1] at hab
        have hablt := (scmp_lt_iff _ _).mp hab
        have hac : a.discriminant ≠ c.discriminant := by rw [← h2]; omega
        rw [vcmp_cross a c hac, ← h2]
        exact (scmp_lt_iff _ _).mpr hablt
      · rw [vcmp_cross a b h1] at hab
        rw [vcmp_cross b c h2] at hbc
        have hablt := (scmp_lt_iff _ _).mp hab
        have hbclt := (scmp_lt_iff _ _).mp hbc
        have hac : a.discriminant ≠ c.discriminant := by omega
        rw [vcmp_cross a c hac]
        exact (scmp_lt_iff _ _).mpr (lt_trans hablt hbclt)

/-- Transitivity of the strict part of `Ord::cmp for Value`. -/
theorem vcmp_lt_trans {a b c : Value} (hab : Value.cmp a b = .lt)
    (hbc : Value.cmp b c = .lt) : Value.cmp a c = .lt :=
  vcmp_lt_trans_fuel (sizeOf a + sizeOf b + sizeOf c) a b c le_rfl hab hbc

theorem lexCmp_eq_iff_eq {α : Type} (f : α → α → Ordering)
    (hf : ∀ x y : α, f x y = .eq ↔ x = y) :
    ∀ xs ys : List α, lexCmp f xs ys = .eq ↔ xs = ys := by
  intro xs
  induction xs with
  | nil => intro ys; cases ys <;> simp [lexCmp]
  | cons x xs ih =>
    intro ys
    cases ys with
    | nil => simp [lexCmp]
    | cons y ys =>
      have hred : lexCmp f (x :: xs) (y :: ys)
          = (match f x y with | .eq => lexCmp f xs ys | o => o) := rfl
      rw [hred]
      cases hfx : f x y
      · simp only [reduceCtorEq, false_iff]
        intro hc
        cases hc
        rw [(hf x x).mpr rfl] at hfx
        exact Ordering.noConfusion hfx
      · rw [ih ys]
        constructor
        · intro h; rw [(hf x y).mp hfx, h]
        · intro h; cases h; rfl
      · simp only [reduceCtorEq, false_iff]
        intro hc
        cases hc
        rw [(hf x x).mpr rfl] at hfx
        exact Ordering.noConfusion hfx

theorem lexBeq_iff_lexCmp {α : Type} (fb : α → α → Bool) (fc : α → α → Ordering) :
    ∀ xs ys : List α, (∀ x ∈ xs, ∀ y ∈ ys, (fb x y = true ↔ fc x y = .eq)) →
    (lexBeq fb xs ys = true ↔ lexCmp fc xs ys = .eq) := by
  intro xs
  induction xs with
  | nil => intro ys _; cases ys <;> simp [lexBeq, lexCmp]
  | cons x xs ih =>
    intro ys hf
    cases ys with
    | nil => simp [lexBeq, lexCmp]
    | cons y ys =>
      have hredb : lexBeq fb (x :: xs) (y :: ys) = (fb x y && lexBeq fb xs ys) := rfl
      have hredc : lexCmp fc (x :: xs) (y :: ys)
          = (match fc x y with | .eq => lexCmp fc xs ys | o => o) := rfl
      rw [hredb, hredc, Bool.and_eq_true]
      cases hfx : fc x y
      · simp only [reduceCtorEq, iff_false]
        rintro ⟨hb, _⟩
        rw [(hf x (by simp) y (by simp)).mp hb] at hfx
        exact Ordering.noConfusion hfx
      · rw [ih ys (fun x' hx' y' hy' => hf x' (by simp [hx']) y' (by simp [hy']))]
        constructor
        · intro hpair; exact hpair.2
        · intro htl; exact ⟨(hf x (by simp) y (by simp)).mpr hfx, htl⟩
      · simp only [reduceCtorEq, iff_false]
        rintro ⟨hb, _⟩
        rw [(hf x (by simp) y (by simp)).mp hb] at hfx
        exact Ordering.noConfusion hfx

theorem vbeq_iff_fuel : ∀ (n : Nat) (a b : Value), sizeOf a + sizeOf b ≤ n →
    (vbeq a b = true ↔ Value.cmp a b = .eq) := by
  intro n
  induction n with
  | zero =>
    intro a b h
    have := value_sizeOf_pos a
    have := value_sizeOf_pos b
    omega
  | succ n ih =>
    intro a b h
    by_cases hd : a.discriminant = b.discriminant
    · revert h
      refine same_disc_elim
        (fun a b => sizeOf a + sizeOf b ≤ n + 1 → (vbeq a b = true ↔ Value.cmp a b = .eq))
        a b hd ?_ ?_ ?_ ?_ ?_ ?_ ?_ ?_ ?_ ?_ ?_ ?_ ?_ ?_ ?_ ?_ ?_ ?_ ?_
      · intro _; exact iff_of_true rfl rfl
      · intro x y _
        show (x == y) = true ↔ scmp x y = .eq
        rw [beq_iff_eq, scmp_eq_iff]
      · intro x y _
        show (x == y) = true ↔ scmp x y = .eq
        rw [beq_iff_eq, scmp_eq_iff]
      · intro x y _
        show (x == y) = true ↔ scmp x y = .eq
        rw [beq_iff_eq, scmp_eq_iff]
      · intro x y _
        show (x == y) = true ↔ scmp x y = .eq
        rw [beq_iff_eq, scmp_eq_iff]
      · intro x y _
        show (x == y) = true ↔ scmp x y = .eq
        rw [beq_iff_eq, scmp_eq_iff]
      · intro x y _
        show (x == y) = true ↔ scmp x y = .eq
        rw [beq_iff_eq, scmp_eq_iff]
      · intro x y _
        show (x == y) = true ↔ scmp x y = .eq
        rw [beq_iff_eq, scmp_eq_iff]
      · intro x y _
        show (x == y) = true ↔ scmp x y = .eq
        rw [beq_iff_eq, scmp_eq_iff]
      · intro x y _
        show (x == y) = true ↔ scmp x y = .eq
        rw [beq_iff_eq, scmp_eq_iff]
      · intro x y _
        exact ordFloatEq_iff 32 23 x.val y.val
      · intro x y _
        exact ordFloatEq_iff 64 52 x.val y.val
      · intro x y _
        show (x == y) = true ↔ charCmp x y = .eq
        rw [beq_iff_eq, charCmp_eq_iff]
      · intro x y hs
        cases x with
        | none =>
          cases y with
          | none => exact iff_of_true rfl rfl
          | some y =>
            constructor
            · intro hb; exact Bool.noConfusion hb
            · intro hc; exact Ordering.noConfusion hc
        | some x =>
          cases y with
          | none =>
            constructor
            · intro hb; exact Bool.noConfusion hb
            · intro hc; exact Ordering.noConfusion hc
          | some y =>
            refine ih x y ?_
            simp_arith at hs
            omega
      · intro x y hs
        refine ih x y ?_
        simp_arith at hs
        omega
      · intro a1 x b1 y _
        show (x == y) = true ↔ lexCmp charCmp x y = .eq
        rw [beq_iff_eq, lexCmp_eq_iff_eq charCmp charCmp_eq_iff]
      · intro a1 x b1 y _
        show (x == y) = true ↔ lexCmp scmp x y = .eq
        rw [beq_iff_eq, lexCmp_eq_iff_eq scmp (fun x' y' => scmp_eq_iff x' y')]
      · intro a1 x b1 y hs
        show vbeqList x y = true ↔ Value.cmpList x y = .eq
        rw [beqList_eq_lexBeq, cmpList_eq_lexCmp]
        refine lexBeq_iff_lexCmp vbeq Value.cmp x y ?_
        intro x' hx' y' hy'
        refine ih x' y' ?_
        have s1 := List.sizeOf_lt_of_mem hx'
        have s2 := List.sizeOf_lt_of_mem hy'
        simp_arith at hs
        omega
      · intro a1 ka k0 v0 b1 kb k1 v1 hs
        simp_arith at hs
        have hkiff : vbeqList k0 k1 = true ↔ Value.cmpList k0 k1 = .eq := by
          rw [beqList_eq_lexBeq, cmpList_eq_lexCmp]
          refine lexBeq_iff_lexCmp vbeq Value.cmp k0 k1 ?_
          intro x' hx' y' hy'
          refine ih x' y' ?_
          have s1 := List.sizeOf_lt_of_mem hx'
          have s2 := List.sizeOf_lt_of_mem hy'
          omega
        have hviff : vbeqList v0 v1 = true ↔ Value.cmpList v0 v1 = .eq := by
          rw [beqList_eq_lexBeq, cmpList_eq_lexCmp]
          refine lexBeq_iff_lexCmp vbeq Value.cmp v0 v1 ?_
          intro x' hx' y' hy'
          refine ih x' y' ?_
          have s1 := List.sizeOf_lt_of_mem hx'
          have s2 := List.sizeOf_lt_of_mem hy'
          omega
        have hredb : vbeq (.Map a1 ka k0 v0) (.Map b1 kb k1 v1)
            = (vbeqList k0 k1 && vbeqList v0 v1) := rfl
        have hredc : Value.cmp (.Map a1 ka k0 v0) (.Map b1 kb k1 v1)
            = (match Value.cmpList k0 k1 with | .eq => Value.cmpList v0 v1 | o => o) := rfl
        rw [hredb, hredc, Bool.and_eq_true]
        cases hk : Value.cmpList k0 k1
        · simp only [reduceCtorEq, iff_false]
          rintro ⟨hb, _⟩
          rw [hkiff.mp hb] at hk
          exact Ordering.noConfusion hk
        · rw [hviff]
          constructor
          · intro hpair; exact hpair.2
          · intro htl; exact ⟨hkiff.mpr hk, htl⟩
        · simp only [reduceCtorEq, iff_false]
          rintro ⟨hb, _⟩
          rw [hkiff.mp hb] at hk
          exact Ordering.noConfusion hk
    · rw [vbeq_cross a b hd, vcmp_cross a b hd]
      constructor
      · intro hb; exact Bool.noConfusion hb
      · intro hc; exact absurd ((scmp_eq_iff _ _).mp hc) hd

/-- `PartialEq` agrees with `Ord`: two values are equal exactly when `cmp`
returns `Equal`. -/
theorem vbeq_iff_vcmp_eq (a b : Value) : vbeq a b = true ↔ Value.cmp a b = .eq :=
  vbeq_iff_fuel (sizeOf a + sizeOf b) a b le_rfl

theorem vcmp_self (a : Value) : Value.cmp a a = .eq := by
  have h := vcmp_swap a a
  cases hc : Value.cmp a a with
  | lt => rw [hc] at h; exact Ordering.noConfusion h
  | eq => rfl
  | gt => rw [hc] at h; exact Ordering.noConfusion h

theorem vbeq_refl (a : Value) : vbeq a a = true :=
  (vbeq_iff_vcmp_eq a a).mpr (vcmp_self a)

theorem vbeq_symm {a b : Value} (h : vbeq a b = true) : vbeq b a = true := by
  rw [vbeq_iff_vcmp_eq] at h ⊢
  have hsw := vcmp_swap b a
  rw [h] at hsw
  cases hc : Value.cmp b a with
  | lt => rw [hc] at hsw; exact Ordering.noConfusion hsw
  | eq => rfl
  | gt => rw [hc] at hsw; exact Ordering.noConfusion hsw

theorem vbeq_trans {a b c : Value} (h1 : vbeq a b = true) (h2 : vbeq b c = true) :
    vbeq a c = true := by
  rw [vbeq_iff_vcmp_eq] at h1 h2 ⊢
  rw [← vcmp_eq_substL h1 c]
  exact h2

theorem vbeqList_length : ∀ {xs ys : List Value}, vbeqList xs ys = true →
    xs.length = ys.length := by
  intro xs
  induction xs with
  | nil =>
    intro ys h
    cases ys with
    | nil => rfl
    | cons y ys => exact Bool.noConfusion h
  | cons x xs ih =>
    intro ys h
    cases ys with
    | nil => exact Bool.noConfusion h
    | cons y ys =>
      have h' : (vbeq x y && vbeqList xs ys) = true := h
      rw [Bool.and_eq_true] at h'
      simp only [List.length_cons, ih h'.2]

theorem hashTraceList_congr : ∀ (xs ys : List Value),
    (∀ x ∈ xs, ∀ y ∈ ys, vbeq x y = true → Value.hashTrace x = Value.hashTrace y) →
    vbeqList xs ys = true → Value.hashTraceList xs = Value.hashTraceList ys := by
  intro xs
  induction xs with
  | nil =>
    intro ys _ h
    cases ys with
    | nil => rfl
    | cons y ys => exact Bool.noConfusion h
  | cons x xs ih =>
    intro ys hf h
    cases ys with
    | nil => exact Bool.noConfusion h
    | cons y ys =>
      have h' : (vbeq x y && vbeqList xs ys) = true := h
      rw [Bool.and_eq_true] at h'
      show Value.hashTrace x ++ Value.hashTraceList xs
          = Value.hashTrace y ++ Value.hashTraceList ys
      rw [hf x (by simp) y (by simp) h'.1,
        ih ys (fun x' hx' y' hy' => hf x' (by simp [hx']) y' (by simp [hy'])) h'.2]

theorem vbeq_hash_fuel : ∀ (n : Nat) (a b : Value), sizeOf a + sizeOf b ≤ n →
    vbeq a b = true → Value.hashTrace a = Value.hashTrace b := by
  intro n
  induction n with
  | zero =>
    intro a b h
    have := value_sizeOf_pos a
    have := value_sizeOf_pos b
    omega
  | succ n ih =>
    intro a b h hab
    by_cases hd : a.discriminant = b.discriminant
    · revert h hab
      refine same_disc_elim
        (fun a b => sizeOf a + sizeOf b ≤ n + 1 → vbeq a b = true →
          Value.hashTrace a = Value.hashTrace b)
        a b hd ?_ ?_ ?_ ?_ ?_ ?_ ?_ ?_ ?_ ?_ ?_ ?_ ?_ ?_ ?_ ?_ ?_ ?_ ?_
      · intro _ _; rfl
      · intro x y _ hab
        have hb : (x == y) = true := hab
        rw [beq_iff_eq.mp hb]
      · intro x y _ hab
        have hb : (x == y) = true := hab
        rw [beq_iff_eq.mp hb]
      · intro x y _ hab
        have hb : (x == y) = true := hab
        rw [beq_iff_eq.mp hb]
      · intro x y _ hab
        have hb : (x == y) = true := hab
        rw [beq_iff_eq.mp hb]
      · intro x y _ hab
        have hb : (x == y) = true := hab
        rw [beq_iff_eq.mp hb]
      · intro x y _ hab
        have hb : (x == y) = true := hab
        rw [beq_iff_eq.mp hb]
      · intro x y _ hab
        have hb : (x == y) = true := hab
        rw [beq_iff_eq.mp hb]
      · intro x y _ hab
        have hb : (x == y) = true := hab
        rw [beq_iff_eq.mp hb]
      · intro x y _ hab
        have hb : (x == y) = true := hab
        rw [beq_iff_eq.mp hb]
      · intro x y _ hab
        show [HToken.usize 9, .fbits (ordFloatHashBits 32 23 x.val)]
          = [HToken.usize 9, .fbits (ordFloatHashBits 32 23 y.val)]
        rw [ordFloatEq_hash_congr hab]
      · intro x y _ hab
        show [HToken.usize 10, .fbits (ordFloatHashBits 64 52 x.val)]
          = [HToken.usize 10, .fbits (ordFloatHashBits 64 52 y.val)]
        rw [ordFloatEq_hash_congr hab]
      · intro x y _ hab
        have hb : (x == y) = true := hab
        rw [beq_iff_eq.mp hb]
      · intro x y hs hab
        cases x with
        | none =>
          cases y with
          | none => rfl
          | some y => exact Bool.noConfusion hab
        | some x =>
          cases y with
          | none => exact Bool.noConfusion hab
          | some y =>
            show HToken.usize 14 :: .usize 1 :: Value.hashTrace x
              = HToken.usize 14 :: .usize 1 :: Value.hashTrace y
            have : Value.hashTrace x = Value.hashTrace y := by
              refine ih x y ?_ hab
              simp_arith at hs
              omega
            rw [this]
      · intro x y hs hab
        show HToken.usize 15 :: Value.hashTrace x = HToken.usize 15 :: Value.hashTrace y
        have : Value.hashTrace x = Value.hashTrace y := by
          refine ih x y ?_ hab
          simp_arith at hs
          omega
        rw [this]
      · intro a1 x b1 y _ hab
        have hb : (x == y) = true := hab
        rw [beq_iff_eq.mp hb]
        rfl
      · intro a1 x b1 y _ hab
        have hb : (x == y) = true := hab
        rw [beq_iff_eq.mp hb]
        rfl
      · intro a1 x b1 y hs hab
        have hab' : vbeqList x y = true := hab
        simp_arith at hs
        have hlen := vbeqList_length hab'
        have htr : Value.hashTraceList x = Value.hashTraceList y := by
          refine hashTraceList_congr x y ?_ hab'
          intro x' hx' y' hy' h'
          refine ih x' y' ?_ h'
          have s1 := List.sizeOf_lt_of_mem hx'
          have s2 := List.sizeOf_lt_of_mem hy'
          omega
        show HToken.usize 16 :: .usize x.length :: Value.hashTraceList x
          = HToken.usize 16 :: .usize y.length :: Value.hashTraceList y
        rw [hlen, htr]
      · intro a1 ka k0 v0 b1 kb k1 v1 hs hab
        have hab' : (vbeqList k0 k1 && vbeqList v0 v1) = true := hab
        rw [Bool.and_eq_true] at hab'
        simp_arith at hs
        have hklen := vbeqList_length hab'.1
        have hvlen := vbeqList_length hab'.2
        have hktr : Value.hashTraceList k0 = Value.hashTraceList k1 := by
          refine hashTraceList_congr k0 k1 ?_ hab'.1
          intro x' hx' y' hy' h'
          refine ih x' y' ?_ h'
          have s1 := List.sizeOf_lt_of_mem hx'
          have s2 := List.sizeOf_lt_of_mem hy'
          omega
        have hvtr : Value.hashTraceList v0 = Value.hashTraceList v1 := by
          refine hashTraceList_congr v0 v1 ?_ hab'.2
          intro x' hx' y' hy' h'
          refine ih x' y' ?_ h'
          have s1 := List.sizeOf_lt_of_mem hx'
          have s2 := List.sizeOf_lt_of_mem hy'
          omega
        show HToken.usize 17 ::
            ((.usize k0.length :: Value.hashTraceList k0) ++
              (.usize v0.length :: Value.hashTraceList v0))
          = HToken.usize 17 ::
            ((.usize k1.length :: Value.hashTraceList k1) ++
              (.usize v1.length :: Value.hashTraceList v1))
        rw [hklen, hvlen, hktr, hvtr]
    · rw [vbeq_cross a b hd] at hab
      exact Bool.noConfusion hab

/-- Equal values produce identical hasher write traces, hence equal hashes
under every hasher. -/
theorem vbeq_hash_congr {a b : Value} (h : vbeq a b = true) :
    Value.hashTrace a = Value.hashTrace b :=
  vbeq_hash_fuel (sizeOf a + sizeOf b) a b le_rfl h

/-! ## The deduplication engine

`Dedup` from `src/lib.rs`.  Each `HashSet<Arc<T>>` is modelled as a list of
the stored `Arc`s (identity token, content), newest first; `HashSet::get`
is lookup by content equality and returns the stored `Arc`.  `ctr` models
the global allocator supplying the identity of each `Arc::new` the engine
performs (every allocation is distinct). -/

/-- The `KV` pair held by a collection, as stored in the `objects` set: the
keys `Arc` (identity, content) and the owned value vector. -/
abbrev KVc : Type := (Nat × List Value) × List Value

/-- Derived `PartialEq for KV`: the keys `Arc` compares by dereferenced
content, the value vector elementwise. -/
def kvBeq (p q : KVc) : Bool := vbeqList p.1.2 q.1.2 && vbeqList p.2 q.2

structure Dedup where
  blobs : List (Nat × List Nat)
  strings : List (Nat × List Char)
  vectors : List (Nat × List Value)
  objects : List (Nat × KVc)
  ctr : Nat

/-- `Dedup::new`. -/
def Dedup.new : Dedup := ⟨[], [], [], [], 0⟩

/-- A fresh identity for an `Arc::new` performed by the engine. -/
def Dedup.alloc (s : Dedup) : Nat × Dedup := (s.ctr, { s with ctr := s.ctr + 1 })

/-- `Dedup::dedup_blob`: return the stored `Arc` when the content is
already registered, otherwise register and return the given `Arc`. -/
def Dedup.dedup_blob (s : Dedup) (p : Nat × List Nat) : (Nat × List Nat) × Dedup :=
  match s.blobs.find? (fun q => q.2 == p.2) with
  | some q => (q, s)
  | none => (p, { s with blobs := p :: s.blobs })

/-- `Dedup::dedup_string`. -/
def Dedup.dedup_string (s : Dedup) (p : Nat × List Char) : (Nat × List Char) × Dedup :=
  match s.strings.find? (fun q => q.2 == p.2) with
  | some q => (q, s)
  | none => (p, { s with strings := p :: s.strings })

/-- `Dedup::dedup_seq`. -/
def Dedup.dedup_seq (s : Dedup) (p : Nat × List Value) : (Nat × List Value) × Dedup :=
  match s.vectors.find? (fun q => vbeqList q.2 p.2) with
  | some q => (q, s)
  | none => (p, { s with vectors := p :: s.vectors })

/-- `Dedup::dedup_map`. -/
def Dedup.dedup_map (s : Dedup) (p : Nat × KVc) : (Nat × KVc) × Dedup :=
  match s.objects.find? (fun q => kvBeq q.2 p.2) with
  | some q => (q, s)
  | none => (p, { s with objects := p :: s.objects })

mutual
/-- `Deduplicator::dedup for Dedup`: blobs and strings are looked up or
registered directly; a sequence first canonicalizes its elements, wraps them
in a fresh `Arc`, then looks the whole sequence up; a collection
canonicalizes its key vector (then wraps it in a fresh `Arc`), canonicalizes
its value vector, deduplicates the key `Arc` through the `vectors` set,
rebuilds the `KV` behind a fresh `Arc` and deduplicates it through the
`objects` set.  Every other variant — scalars, unit, char, and also
`Option`/`Newtype` — falls through the final catch-all arm unchanged. -/
def Dedup.dedup (s : Dedup) : Value → Value × Dedup
  | .Bytes a c =>
    let r := s.dedup_blob (a, c)
    (.Bytes r.1.1 r.1.2, r.2)
  | .String a c =>
    let r := s.dedup_string (a, c)
    (.String r.1.1 r.1.2, r.2)
  | .Seq _ xs =>
    let rv := s.dedup_value_vec xs
    let an := rv.2.alloc
    let r := an.2.dedup_seq (an.1, rv.1)
    (.Seq r.1.1 r.1.2, r.2)
  | .Map _ _ ks vs =>
    let rk := s.dedup_value_vec ks
    let an := rk.2.alloc
    let rv := an.2.dedup_value_vec vs
    let r := rv.2.dedup_seq (an.1, rk.1)
    let am := r.2.alloc
    let ro := am.2.dedup_map (am.1, (r.1, rv.1))
    (.Map ro.1.1 ro.1.2.1.1 ro.1.2.1.2 ro.1.2.2, ro.2)
  | x => (x, s)
/-- `Dedup::dedup_value_vec`: canonicalize the elements in order, threading
the context through. -/
def Dedup.dedup_value_vec (s : Dedup) : List Value → List Value × Dedup
  | [] => ([], s)
  | x :: xs =>
    let r := s.dedup x
    let rs := r.2.dedup_value_vec xs
    (r.1 :: rs.1, rs.2)
end

/-- The two states hold exactly the same four content sets (the allocator
counter may differ). -/
def Dedup.sameSets (s t : Dedup) : Prop :=
  s.blobs = t.blobs ∧ s.strings = t.strings ∧ s.vectors = t.vectors ∧ s.objects = t.objects

/-- Every entry stored in `s` is still stored in `t`. -/
def Dedup.subsets (s t : Dedup) : Prop :=
  (∀ e ∈ s.blobs, e ∈ t.blobs) ∧ (∀ e ∈ s.strings, e ∈ t.strings) ∧
  (∀ e ∈ s.vectors, e ∈ t.vectors) ∧ (∀ e ∈ s.objects, e ∈ t.objects)

/-- A value is canonical for state `s`: if it is of a shareable shape, its
`Arc` (identity and content) is itself a stored entry of the corresponding
content set. -/
def Canon (s : Dedup) : Value → Prop
  | .String a c => (a, c) ∈ s.strings
  | .Bytes a c => (a, c) ∈ s.blobs
  | .Seq a c => (a, c) ∈ s.vectors
  | .Map a ka ks vs => (a, ((ka, ks), vs)) ∈ s.objects
  | _ => True

/-- Well-formedness of a `Dedup` state, maintained by the engine: no two
stored entries of a set have equal content (`HashSet` semantics — the code
only inserts after a failed lookup), every stored sequence's elements are
canonical, and every stored `KV`'s key `Arc` is a stored sequence and its
values are canonical. -/
def Dedup.wf (s : Dedup) : Prop :=
  s.blobs.Pairwise (fun p q => p.2 ≠ q.2) ∧
  s.strings.Pairwise (fun p q => p.2 ≠ q.2) ∧
  s.vectors.Pairwise (fun p q => vbeqList p.2 q.2 = false) ∧
  s.objects.Pairwise (fun p q => kvBeq p.2 q.2 = false) ∧
  (∀ p ∈ s.vectors, ∀ x ∈ p.2, Canon s x) ∧
  (∀ p ∈ s.objects, (p.2.1.1, p.2.1.2) ∈ s.vectors ∧ ∀ x ∈ p.2.2, Canon s x)

/-! ## Basic facts about structural list equality and lookups -/

theorem vbeqList_refl (xs : List Value) : vbeqList xs xs = true := by
  induction xs with
  | nil => rfl
  | cons x xs ih =>
    show (vbeq x x && vbeqList xs xs) = true
    rw [vbeq_refl x, ih]
    rfl

theorem vbeqList_symm : ∀ {xs ys : List Value}, vbeqList xs ys = true →
    vbeqList ys xs = true := by
  intro xs
  induction xs with
  | nil =>
    intro ys h
    cases ys with
    | nil => rfl
    | cons y ys => exact Bool.noConfusion h
  | cons x xs ih =>
    intro ys h
    cases ys with
    | nil => exact Bool.noConfusion h
    | cons y ys =>
      have h' : (vbeq x y && vbeqList xs ys) = true := h
      rw [Bool.and_eq_true] at h'
      show (vbeq y x && vbeqList ys xs) = true
      rw [vbeq_symm h'.1, ih h'.2]
      rfl

theorem vbeqList_trans : ∀ {xs ys zs : List Value}, vbeqList xs ys = true →
    vbeqList ys zs = true → vbeqList xs zs = true := by
  intro xs
  induction xs with
  | nil =>
    intro ys zs h1 h2
    cases ys with
    | nil => exact h2
    | cons y ys => exact Bool.noConfusion h1
  | cons x xs ih =>
    intro ys zs h1 h2
    cases ys with
    | nil => exact Bool.noConfusion h1
    | cons y ys =>
      cases zs with
      | nil => exact Bool.noConfusion h2
      | cons z zs =>
        have h1' : (vbeq x y && vbeqList xs ys) = true := h1
        have h2' : (vbeq y z && vbeqList ys zs) = true := h2
        rw [Bool.and_eq_true] at h1' h2'
        show (vbeq x z && vbeqList xs zs) = true
        rw [vbeq_trans h1'.1 h2'.1, ih h1'.2 h2'.2]
        rfl

theorem kvBeq_refl (p : KVc) : kvBeq p p = true := by
  unfold kvBeq
  rw [vbeqList_refl, vbeqList_refl]
  rfl

theorem kvBeq_symm {p q : KVc} (h : kvBeq p q = true) : kvBeq q p = true := by
  unfold kvBeq at *
  rw [Bool.and_eq_true] at h
  rw [vbeqList_symm h.1, vbeqList_symm h.2]
  rfl

theorem kvBeq_trans {p q r : KVc} (h1 : kvBeq p q = true) (h2 : kvBeq q r = true) :
    kvBeq p r = true := by
  unfold kvBeq at *
  rw [Bool.and_eq_true] at h1 h2
  rw [vbeqList_trans h1.1 h2.1, vbeqList_trans h1.2 h2.2]
  rfl

theorem vbeq_disc {a b : Value} (h : vbeq a b = true) :
    a.discriminant = b.discriminant := by
  by_contra hd
  rw [vbeq_cross a b hd] at h
  exact Bool.noConfusion h

theorem find?_eq_some_of_mem {α : Type} (p : α → Bool) :
    ∀ (l : List α) (a : α), a ∈ l → p a = true →
    (∀ b ∈ l, p b = true → b = a) → l.find? p = some a := by
  intro l
  induction l with
  | nil => intro a ha _ _; exact absurd ha (List.not_mem_nil a)
  | cons x l ih =>
    intro a ha hpa huniq
    cases hpx : p x
    · have hax : a ≠ x := by
        intro h
        rw [h, hpx] at hpa
        exact Bool.noConfusion hpa
      have ha' : a ∈ l := by
        rcases List.mem_cons.mp ha with h | h
        · exact absurd h hax
        · exact h
      rw [List.find?_cons_of_neg _ (by rw [hpx]; exact Bool.noConfusion)]
      exact ih a ha' hpa (fun b hb hpb => huniq b (List.mem_cons_of_mem x hb) hpb)
    · rw [List.find?_cons_of_pos _ hpx]
      exact congrArg some (huniq x (List.mem_cons_self x l) hpx)

/-- In a list whose stored contents are pairwise non-equivalent, looking up
any content equivalent to a stored entry finds exactly that entry. -/
theorem stored_lookup {α : Type} (R : α → α → Bool)
    (hsym : ∀ {x y : α}, R x y = true → R y x = true)
    (htr : ∀ {x y z : α}, R x y = true → R y z = true → R x z = true)
    (l : List (Nat × α)) (hpw : l.Pairwise (fun p q => R p.2 q.2 = false))
    (e : Nat × α) (he : e ∈ l) (c : α) (hec : R e.2 c = true) :
    l.find? (fun q => R q.2 c) = some e := by
  refine find?_eq_some_of_mem _ l e he hec ?_
  intro b hb hbc
  by_contra hne
  have hsymRel : Symmetric (fun p q : Nat × α => R p.2 q.2 = false) := by
    intro p q h
    cases hq : R q.2 p.2
    · rfl
    · rw [hsym hq] at h
      exact Bool.noConfusion h
  have hfalse : R b.2 e.2 = false := List.Pairwise.forall hsymRel hpw hb he hne
  have htrue : R b.2 e.2 = true := htr hbc (hsym hec)
  rw [htrue] at hfalse
  exact Bool.noConfusion hfalse

theorem subsets_refl (s : Dedup) : s.subsets s :=
  ⟨fun _ h => h, fun _ h => h, fun _ h => h, fun _ h => h⟩

theorem subsets_trans {s t u : Dedup} (h1 : s.subsets t) (h2 : t.subsets u) :
    s.subsets u :=
  ⟨fun e he => h2.1 e (h1.1 e he), fun e he => h2.2.1 e (h1.2.1 e he),
   fun e he => h2.2.2.1 e (h1.2.2.1 e he), fun e he => h2.2.2.2 e (h1.2.2.2 e he)⟩

theorem sameSets_refl (s : Dedup) : s.sameSets s := ⟨rfl, rfl, rfl, rfl⟩

theorem subsets_of_sameSets {s t : Dedup} (h : s.sameSets t) : s.subsets t := by
  obtain ⟨h1, h2, h3, h4⟩ := h
  exact ⟨fun e he => h1 ▸ he, fun e he => h2 ▸ he, fun e he => h3 ▸ he, fun e he => h4 ▸ he⟩

theorem sameSets_trans {s t u : Dedup} (h1 : s.sameSets t) (h2 : t.sameSets u) :
    s.sameSets u :=
  ⟨h1.1.trans h2.1, h1.2.1.trans h2.2.1, h1.2.2.1.trans h2.2.2.1, h1.2.2.2.trans h2.2.2.2⟩

theorem canon_mono {s t : Dedup} (hsub : s.subsets t) : ∀ {v : Value}, Canon s v → Canon t v := by
  intro v
  cases v <;> intro h <;>
    first
      | trivial
      | exact hsub.1 _ h
      | exact hsub.2.1 _ h
      | exact hsub.2.2.1 _ h
      | exact hsub.2.2.2 _ h

theorem wf_of_sameSets {s t : Dedup} (h : s.sameSets t) (hw : s.wf) : t.wf := by
  obtain ⟨h1, h2, h3, h4⟩ := h
  obtain ⟨w1, w2, w3, w4, w5, w6⟩ := hw
  refine ⟨h1 ▸ w1, h2 ▸ w2, h3 ▸ w3, h4 ▸ w4, ?_, ?_⟩
  · intro p hp x hx
    exact canon_mono (subsets_of_sameSets ⟨h1, h2, h3, h4⟩) (w5 p (h3 ▸ hp) x hx)
  · intro p hp
    obtain ⟨m1, m2⟩ := w6 p (h4 ▸ hp)
    exact ⟨h3 ▸ m1, fun x hx => canon_mono (subsets_of_sameSets ⟨h1, h2, h3, h4⟩) (m2 x hx)⟩

theorem alloc_sameSets {s : Dedup} {n : Nat} {t : Dedup} (h : s.alloc = (n, t)) :
    s.sameSets t := by
  have ht : t = { s with ctr := s.ctr + 1 } := (congrArg Prod.snd h).symm.trans rfl
  subst ht
  exact ⟨rfl, rfl, rfl, rfl⟩

/-! Equation lemmas relating a `dedup` call to its helper calls, stated with
explicit intermediate results so proofs can thread the state. -/

theorem dedup_bytes_eq {s : Dedup} {a : Nat} {c : List Nat} {q : Nat × List Nat} {t : Dedup}
    (h : s.dedup_blob (a, c) = (q, t)) :
    s.dedup (.Bytes a c) = (.Bytes q.1 q.2, t) := by
  show (Value.Bytes (s.dedup_blob (a, c)).1.1 (s.dedup_blob (a, c)).1.2,
    (s.dedup_blob (a, c)).2) = _
  rw [h]

theorem dedup_string_eq {s : Dedup} {a : Nat} {c : List Char} {q : Nat × List Char} {t : Dedup}
    (h : s.dedup_string (a, c) = (q, t)) :
    s.dedup (.String a c) = (.String q.1 q.2, t) := by
  show (Value.String (s.dedup_string (a, c)).1.1 (s.dedup_string (a, c)).1.2,
    (s.dedup_string (a, c)).2) = _
  rw [h]

theorem dedup_seq_eq {s : Dedup} {a : Nat} {xs xs' : List Value} {s1 : Dedup}
    {n1 : Nat} {s2 : Dedup} {q : Nat × List Value} {s3 : Dedup}
    (hxs : s.dedup_value_vec xs = (xs', s1)) (han : s1.alloc = (n1, s2))
    (hq : s2.dedup_seq (n1, xs') = (q, s3)) :
    s.dedup (.Seq a xs) = (.Seq q.1 q.2, s3) := by
  show (Value.Seq ((s.dedup_value_vec xs).2.alloc.2.dedup_seq
        ((s.dedup_value_vec xs).2.alloc.1, (s.dedup_value_vec xs).1)).1.1
      ((s.dedup_value_vec xs).2.alloc.2.dedup_seq
        ((s.dedup_value_vec xs).2.alloc.1, (s.dedup_value_vec xs).1)).1.2,
    ((s.dedup_value_vec xs).2.alloc.2.dedup_seq
      ((s.dedup_value_vec xs).2.alloc.1, (s.dedup_value_vec xs).1)).2) = _
  rw [hxs]
  dsimp only
  rw [han]
  dsimp only
  rw [hq]

theorem dedup_map_arm_eq {s : Dedup} {a ka : Nat} {ks vs ks' : List Value} {s1 : Dedup}
    {n1 : Nat} {s2 : Dedup} {vs' : List Value} {s3 : Dedup}
    {kp : Nat × List Value} {s4 : Dedup} {m1 : Nat} {s5 : Dedup}
    {op : Nat × KVc} {s6 : Dedup}
    (hks : s.dedup_value_vec ks = (ks', s1)) (han : s1.alloc = (n1, s2))
    (hvs : s2.dedup_value_vec vs = (vs', s3))
    (hkp : s3.dedup_seq (n1, ks') = (kp, s4)) (ham : s4.alloc = (m1, s5))
    (hop : s5.dedup_map (m1, (kp, vs')) = (op, s6)) :
    s.dedup (.Map a ka ks vs) = (.Map op.1 op.2.1.1 op.2.1.2 op.2.2, s6) := by
  show (let rk := s.dedup_value_vec ks
        let an := rk.2.alloc
        let rv := an.2.dedup_value_vec vs
        let r := rv.2.dedup_seq (an.1, rk.1)
        let am := r.2.alloc
        let ro := am.2.dedup_map (am.1, (r.1, rv.1))
        ((Value.Map ro.1.1 ro.1.2.1.1 ro.1.2.1.2 ro.1.2.2, ro.2) : Value × Dedup)) = _
  dsimp only
  rw [hks]
  dsimp only
  rw [han]
  dsimp only
  rw [hvs]
  dsimp only
  rw [hkp]
  dsimp only
  rw [ham]
  dsimp only
  rw [hop]

theorem dedup_vec_nil (s : Dedup) : s.dedup_value_vec [] = ([], s) := rfl

theorem dedup_vec_cons_eq {s : Dedup} {x : Value} {xs : List Value}
    {x' : Value} {s1 : Dedup} {xs' : List Value} {s2 : Dedup}
    (hx : s.dedup x = (x', s1)) (hxs : s1.dedup_value_vec xs = (xs', s2)) :
    s.dedup_value_vec (x :: xs) = (x' :: xs', s2) := by
  show ((s.dedup x).1 :: ((s.dedup x).2.dedup_value_vec xs).1,
    ((s.dedup x).2.dedup_value_vec xs).2) = _
  rw [hx]
  dsimp only
  rw [hxs]

theorem dedup_blob_spec {s : Dedup} {p q : Nat × List Nat} {t : Dedup}
    (h : s.dedup_blob p = (q, t)) :
    (q.2 == p.2) = true ∧ q ∈ t.blobs ∧ s.subsets t ∧ (s.wf → t.wf) := by
  unfold Dedup.dedup_blob at h
  cases hfind : s.blobs.find? (fun q => q.2 == p.2) <;> rw [hfind] at h
  · injection h with h1 h2
    subst h1
    subst h2
    refine ⟨by simp, List.mem_cons_self p s.blobs, ⟨fun e he => List.mem_cons_of_mem p he,
      fun _ he => he, fun _ he => he, fun _ he => he⟩, ?_⟩
    intro hw
    obtain ⟨w1, w2, w3, w4, w5, w6⟩ := hw
    have hsub : s.subsets { s with blobs := p :: s.blobs } :=
      ⟨fun e he => List.mem_cons_of_mem p he, fun _ he => he, fun _ he => he, fun _ he => he⟩
    refine ⟨?_, w2, w3, w4, ?_, ?_⟩
    · refine List.Pairwise.cons ?_ w1
      intro q hq hc
      have hn := List.find?_eq_none.mp hfind q hq
      rw [hc] at hn
      exact hn (by simp)
    · intro pv hpv x hx
      exact canon_mono hsub (w5 pv hpv x hx)
    · intro po hpo
      obtain ⟨m1, m2⟩ := w6 po hpo
      exact ⟨m1, fun x hx => canon_mono hsub (m2 x hx)⟩
  · injection h with h1 h2
    subst h1
    subst h2
    have hbq := List.find?_some hfind
    exact ⟨hbq, List.mem_of_find?_eq_some hfind, subsets_refl s, fun hw => hw⟩

theorem dedup_string_spec {s : Dedup} {p q : Nat × List Char} {t : Dedup}
    (h : s.dedup_string p = (q, t)) :
    (q.2 == p.2) = true ∧ q ∈ t.strings ∧ s.subsets t ∧ (s.wf → t.wf) := by
  unfold Dedup.dedup_string at h
  cases hfind : s.strings.find? (fun q => q.2 == p.2) <;> rw [hfind] at h
  · injection h with h1 h2
    subst h1
    subst h2
    refine ⟨by simp, List.mem_cons_self p s.strings, ⟨fun _ he => he,
      fun e he => List.mem_cons_of_mem p he, fun _ he => he, fun _ he => he⟩, ?_⟩
    intro hw
    obtain ⟨w1, w2, w3, w4, w5, w6⟩ := hw
    have hsub : s.subsets { s with strings := p :: s.strings } :=
      ⟨fun _ he => he, fun e he => List.mem_cons_of_mem p he, fun _ he => he, fun _ he => he⟩
    refine ⟨w1, ?_, w3, w4, ?_, ?_⟩
    · refine List.Pairwise.cons ?_ w2
      intro q hq hc
      have hn := List.find?_eq_none.mp hfind q hq
      rw [hc] at hn
      exact hn (by simp)
    · intro pv hpv x hx
      exact canon_mono hsub (w5 pv hpv x hx)
    · intro po hpo
      obtain ⟨m1, m2⟩ := w6 po hpo
      exact ⟨m1, fun x hx => canon_mono hsub (m2 x hx)⟩
  · injection h with h1 h2
    subst h1
    subst h2
    have hbq := List.find?_some hfind
    exact ⟨hbq, List.mem_of_find?_eq_some hfind, subsets_refl s, fun hw => hw⟩

theorem dedup_seq_spec {s : Dedup} {p q : Nat × List Value} {t : Dedup}
    (h : s.dedup_seq p = (q, t)) :
    vbeqList q.2 p.2 = true ∧ q ∈ t.vectors ∧ s.subsets t ∧
    (s.wf → (∀ x ∈ p.2, Canon s x) → t.wf) := by
  unfold Dedup.dedup_seq at h
  cases hfind : s.vectors.find? (fun q => vbeqList q.2 p.2) <;> rw [hfind] at h
  · injection h with h1 h2
    subst h1
    subst h2
    have hsub : s.subsets { s with vectors := p :: s.vectors } :=
      ⟨fun _ he => he, fun _ he => he, fun e he => List.mem_cons_of_mem p he, fun _ he => he⟩
    refine ⟨vbeqList_refl p.2, List.mem_cons_self p s.vectors, hsub, ?_⟩
    intro hw hcan
    obtain ⟨w1, w2, w3, w4, w5, w6⟩ := hw
    refine ⟨w1, w2, ?_, w4, ?_, ?_⟩
    · refine List.Pairwise.cons ?_ w3
      intro q hq
      have hn := List.find?_eq_none.mp hfind q hq
      cases hc : vbeqList p.2 q.2
      · rfl
      · exact absurd (vbeqList_symm hc) hn
    · intro pv hpv x hx
      rcases List.mem_cons.mp hpv with hpe | hpv'
      · subst hpe
        exact canon_mono hsub (hcan x hx)
      · exact canon_mono hsub (w5 pv hpv' x hx)
    · intro po hpo
      obtain ⟨m1, m2⟩ := w6 po hpo
      exact ⟨List.mem_cons_of_mem p m1, fun x hx => canon_mono hsub (m2 x hx)⟩
  · injection h with h1 h2
    subst h1
    subst h2
    have hbq := List.find?_some hfind
    exact ⟨hbq, List.mem_of_find?_eq_some hfind, subsets_refl s, fun hw _ => hw⟩

theorem dedup_map_spec {s : Dedup} {p q : Nat × KVc} {t : Dedup}
    (h : s.dedup_map p = (q, t)) :
    kvBeq q.2 p.2 = true ∧ q ∈ t.objects ∧ s.subsets t ∧
    (s.wf → (p.2.1.1, p.2.1.2) ∈ s.vectors → (∀ x ∈ p.2.2, Canon s x) → t.wf) := by
  unfold Dedup.dedup_map at h
  cases hfind : s.objects.find? (fun q => kvBeq q.2 p.2) <;> rw [hfind] at h
  · injection h with h1 h2
    subst h1
    subst h2
    have hsub : s.subsets { s with objects := p :: s.objects } :=
      ⟨fun _ he => he, fun _ he => he, fun _ he => he, fun e he => List.mem_cons_of_mem p he⟩
    refine ⟨kvBeq_refl p.2, List.mem_cons_self p s.objects, hsub, ?_⟩
    intro hw hkv hcan
    obtain ⟨w1, w2, w3, w4, w5, w6⟩ := hw
    refine ⟨w1, w2, w3, ?_, ?_, ?_⟩
    · refine List.Pairwise.cons ?_ w4
      intro q hq
      have hn := List.find?_eq_none.mp hfind q hq
      cases hc : kvBeq p.2 q.2
      · rfl
      · exact absurd (kvBeq_symm hc) hn
    · intro pv hpv x hx
      exact canon_mono hsub (w5 pv hpv x hx)
    · intro po hpo
      rcases List.mem_cons.mp hpo with hpe | hpo'
      · subst hpe
        exact ⟨hkv, fun x hx => canon_mono hsub (hcan x hx)⟩
      · obtain ⟨m1, m2⟩ := w6 po hpo'
        exact ⟨m1, fun x hx => canon_mono hsub (m2 x hx)⟩
  · injection h with h1 h2
    subst h1
    subst h2
    have hbq := List.find?_some hfind
    exact ⟨hbq, List.mem_of_find?_eq_some hfind, subsets_refl s, fun hw _ _ => hw⟩

theorem list_sizeOf_pos (xs : List Value) : 0 < sizeOf xs := by
  cases xs <;> simp_arith

theorem dedup_beq_fuel : ∀ n : Nat,
    (∀ (s : Dedup) (v : Value), sizeOf v ≤ n → vbeq (s.dedup v).1 v = true) ∧
    (∀ (s : Dedup) (xs : List Value), sizeOf xs ≤ n →
      vbeqList (s.dedup_value_vec xs).1 xs = true) := by
  intro n
  induction n with
  | zero =>
    constructor
    · intro s v h
      have := value_sizeOf_pos v
      omega
    · intro s xs h
      have := list_sizeOf_pos xs
      omega
  | succ n ih =>
    obtain ⟨ihv, ihl⟩ := ih
    constructor
    · intro s v hsz
      cases v with
      | Unit => exact vbeq_refl _
      | Bool x => exact vbeq_refl _
      | U8 x => exact vbeq_refl _
      | U16 x => exact vbeq_refl _
      | U32 x => exact vbeq_refl _
      | U64 x => exact vbeq_refl _
      | I8 x => exact vbeq_refl _
      | I16 x => exact vbeq_refl _
      | I32 x => exact vbeq_refl _
      | I64 x => exact vbeq_refl _
      | F32 x => exact vbeq_refl _
      | F64 x => exact vbeq_refl _
      | Char x => exact vbeq_refl _
      | Option x => exact vbeq_refl _
      | Newtype x => exact vbeq_refl _
      | Bytes a c =>
        rcases hb : s.dedup_blob (a, c) with ⟨q, t⟩
        rw [dedup_bytes_eq hb]
        exact (dedup_blob_spec hb).1
      | String a c =>
        rcases hb : s.dedup_string (a, c) with ⟨q, t⟩
        rw [dedup_string_eq hb]
        exact (dedup_string_spec hb).1
      | Seq a xs =>
        rcases hxs : s.dedup_value_vec xs with ⟨xs', s1⟩
        rcases han : s1.alloc with ⟨n1, s2⟩
        rcases hq : s2.dedup_seq (n1, xs') with ⟨q, s3⟩
        rw [dedup_seq_eq hxs han hq]
        have h1 : vbeqList xs' xs = true := by
          have hh := ihl s xs (by simp_arith at hsz; omega)
          rwa [hxs] at hh
        have h2 := (dedup_seq_spec hq).1
        exact vbeqList_trans h2 h1
      | Map a ka ks vs =>
        rcases hks : s.dedup_value_vec ks with ⟨ks', s1⟩
        rcases han : s1.alloc with ⟨n1, s2⟩
        rcases hvs : s2.dedup_value_vec vs with ⟨vs', s3⟩
        rcases hkp : s3.dedup_seq (n1, ks') with ⟨kp, s4⟩
        rcases ham : s4.alloc with ⟨m1, s5⟩
        rcases hop : s5.dedup_map (m1, (kp, vs')) with ⟨op, s6⟩
        rw [dedup_map_arm_eq hks han hvs hkp ham hop]
        simp_arith at hsz
        have hks1 : vbeqList ks' ks = true := by
          have hh := ihl s ks (by omega)
          rwa [hks] at hh
        have hvs1 : vbeqList vs' vs = true := by
          have hh := ihl s2 vs (by omega)
          rwa [hvs] at hh
        have hk2 := (dedup_seq_spec hkp).1
        have ho := (dedup_map_spec hop).1
        unfold kvBeq at ho
        rw [Bool.and_eq_true] at ho
        show (vbeqList op.2.1.2 ks && vbeqList op.2.2 vs) = true
        rw [vbeqList_trans ho.1 (vbeqList_trans hk2 hks1), vbeqList_trans ho.2 hvs1]
        rfl
    · intro s xs hsz
      cases xs with
      | nil =>
        rw [dedup_vec_nil]
        exact vbeqList_refl []
      | cons x xs =>
        rcases hx : s.dedup x with ⟨x', s1⟩
        rcases hxs : s1.dedup_value_vec xs with ⟨xs', s2⟩
        rw [dedup_vec_cons_eq hx hxs]
        simp_arith at hsz
        have h1 : vbeq x' x = true := by
          have hh := ihv s x (by omega)
          rwa [hx] at hh
        have h2 : vbeqList xs' xs = true := by
          have hh := ihl s1 xs (by omega)
          rwa [hxs] at hh
        show (vbeq x' x && vbeqList xs' xs) = true
        rw [h1, h2]
        rfl

/-- The engine returns a value structurally equal to its input, for every
state of the session (no failure case: the operation is total). -/
theorem dedup_returns_equal (s : Dedup) (v : Value) : vbeq (s.dedup v).1 v = true :=
  (dedup_beq_fuel (sizeOf v)).1 s v le_rfl

theorem dedup_vec_returns_equal (s : Dedup) (xs : List Value) :
    vbeqList (s.dedup_value_vec xs).1 xs = true :=
  (dedup_beq_fuel (sizeOf xs)).2 s xs le_rfl

theorem dedup_wf_fuel : ∀ n : Nat,
    (∀ (s : Dedup) (v : Value), sizeOf v ≤ n → s.wf →
      (s.dedup v).2.wf ∧ s.subsets (s.dedup v).2 ∧ Canon (s.dedup v).2 (s.dedup v).1) ∧
    (∀ (s : Dedup) (xs : List Value), sizeOf xs ≤ n → s.wf →
      (s.dedup_value_vec xs).2.wf ∧ s.subsets (s.dedup_value_vec xs).2 ∧
      ∀ x ∈ (s.dedup_value_vec xs).1, Canon (s.dedup_value_vec xs).2 x) := by
  intro n
  induction n with
  | zero =>
    constructor
    · intro s v h
      have := value_sizeOf_pos v
      omega
    · intro s xs h
      have := list_sizeOf_pos xs
      omega
  | succ n ih =>
    obtain ⟨ihv, ihl⟩ := ih
    constructor
    · intro s v hsz hw
      cases v with
      | Unit => exact ⟨hw, subsets_refl s, trivial⟩
      | Bool x => exact ⟨hw, subsets_refl s, trivial⟩
      | U8 x => exact ⟨hw, subsets_refl s, trivial⟩
      | U16 x => exact ⟨hw, subsets_refl s, trivial⟩
      | U32 x => exact ⟨hw, subsets_refl s, trivial⟩
      | U64 x => exact ⟨hw, subsets_refl s, trivial⟩
      | I8 x => exact ⟨hw, subsets_refl s, trivial⟩
      | I16 x => exact ⟨hw, subsets_refl s, trivial⟩
      | I32 x => exact ⟨hw, subsets_refl s, trivial⟩
      | I64 x => exact ⟨hw, subsets_refl s, trivial⟩
      | F32 x => exact ⟨hw, subsets_refl s, trivial⟩
      | F64 x => exact ⟨hw, subsets_refl s, trivial⟩
      | Char x => exact ⟨hw, subsets_refl s, trivial⟩
      | Option x => exact ⟨hw, subsets_refl s, trivial⟩
      | Newtype x => exact ⟨hw, subsets_refl s, trivial⟩
      | Bytes a c =>
        rcases hb : s.dedup_blob (a, c) with ⟨q, t⟩
        rw [dedup_bytes_eq hb]
        obtain ⟨_, hmem, hsub, hwf⟩ := dedup_blob_spec hb
        exact ⟨hwf hw, hsub, hmem⟩
      | String a c =>
        rcases hb : s.dedup_string (a, c) with ⟨q, t⟩
        rw [dedup_string_eq hb]
        obtain ⟨_, hmem, hsub, hwf⟩ := dedup_string_spec hb
        exact ⟨hwf hw, hsub, hmem⟩
      | Seq a xs =>
        rcases hxs : s.dedup_value_vec xs with ⟨xs', s1⟩
        rcases han : s1.alloc with ⟨n1, s2⟩
        rcases hq : s2.dedup_seq (n1, xs') with ⟨q, s3⟩
        rw [dedup_seq_eq hxs han hq]
        have hl := ihl s xs (by simp_arith at hsz; omega) hw
        rw [hxs] at hl
        obtain ⟨hw1, hsub1, hcan1⟩ := hl
        have hss12 := alloc_sameSets han
        have hw2 : s2.wf := wf_of_sameSets hss12 hw1
        obtain ⟨_, hmem, hsub23, hwf3⟩ := dedup_seq_spec hq
        have hw3 : s3.wf := hwf3 hw2
          (fun x hx => canon_mono (subsets_of_sameSets hss12) (hcan1 x hx))
        refine ⟨hw3, ?_, hmem⟩
        exact subsets_trans hsub1 (subsets_trans (subsets_of_sameSets hss12) hsub23)
      | Map a ka ks vs =>
        rcases hks : s.dedup_value_vec ks with ⟨ks', s1⟩
        rcases han : s1.alloc with ⟨n1, s2⟩
        rcases hvs : s2.dedup_value_vec vs with ⟨vs', s3⟩
        rcases hkp : s3.dedup_seq (n1, ks') with ⟨kp, s4⟩
        rcases ham : s4.alloc with ⟨m1, s5⟩
        rcases hop : s5.dedup_map (m1, (kp, vs')) with ⟨op, s6⟩
        rw [dedup_map_arm_eq hks han hvs hkp ham hop]
        simp_arith at hsz
        have hl1 := ihl s ks (by omega) hw
        rw [hks] at hl1
        obtain ⟨hw1, hsub1, hcan1⟩ := hl1
        have hss12 := alloc_sameSets han
        have hw2 : s2.wf := wf_of_sameSets hss12 hw1
        have hl2 := ihl s2 vs (by omega) hw2
        rw [hvs] at hl2
        obtain ⟨hw3, hsub23, hcan3⟩ := hl2
        obtain ⟨_, hkmem, hsub34, hwf4⟩ := dedup_seq_spec hkp
        have hw4 : s4.wf := hwf4 hw3
          (fun x hx =>
            canon_mono hsub23 (canon_mono (subsets_of_sameSets hss12) (hcan1 x hx)))
        have hss45 := alloc_sameSets ham
        have hw5 : s5.wf := wf_of_sameSets hss45 hw4
        obtain ⟨_, homem, hsub56, hwf6⟩ := dedup_map_spec hop
        have hw6 : s6.wf := hwf6 hw5
          ((subsets_of_sameSets hss45).2.2.1 kp hkmem)
          (fun x hx =>
            canon_mono (subsets_of_sameSets hss45)
              (canon_mono hsub34 (hcan3 x hx)))
        refine ⟨hw6, ?_, homem⟩
        exact subsets_trans hsub1 (subsets_trans (subsets_of_sameSets hss12)
          (subsets_trans hsub23 (subsets_trans hsub34
            (subsets_trans (subsets_of_sameSets hss45) hsub56))))
    · intro s xs hsz hw
      cases xs with
      | nil =>
        rw [dedup_vec_nil]
        exact ⟨hw, subsets_refl s, fun x hx => absurd hx (List.not_mem_nil x)⟩
      | cons x xs =>
        rcases hx : s.dedup x with ⟨x', s1⟩
        rcases hxs : s1.dedup_value_vec xs with ⟨xs', s2⟩
        rw [dedup_vec_cons_eq hx hxs]
        simp_arith at hsz
        have hv := ihv s x (by omega) hw
        rw [hx] at hv
        obtain ⟨hw1, hsub1, hcan1⟩ := hv
        have hl := ihl s1 xs (by omega) hw1
        rw [hxs] at hl
        obtain ⟨hw2, hsub2, hcan2⟩ := hl
        refine ⟨hw2, subsets_trans hsub1 hsub2, ?_⟩
        intro y hy
        rcases List.mem_cons.mp hy with hye | hyt
        · subst hye
          exact canon_mono hsub2 hcan1
        · exact hcan2 y hyt

theorem dedup_wf (s : Dedup) (v : Value) (hw : s.wf) :
    (s.dedup v).2.wf ∧ s.subsets (s.dedup v).2 ∧ Canon (s.dedup v).2 (s.dedup v).1 :=
  (dedup_wf_fuel (sizeOf v)).1 s v le_rfl hw

theorem sameSets_symm {s t : Dedup} (h : s.sameSets t) : t.sameSets s :=
  ⟨h.1.symm, h.2.1.symm, h.2.2.1.symm, h.2.2.2.symm⟩

/-- The four variants eligible for content sharing (the spec's "shareable
shapes"): string, byte blob, sequence, collection. -/
def isShareable : Value → Bool
  | .String _ _ => true
  | .Bytes _ _ => true
  | .Seq _ _ => true
  | .Map _ _ _ _ => true
  | _ => false

theorem vbeq_inv_string {w : Value} {b : Nat} {c : List Char}
    (h : vbeq w (.String b c) = true) : ∃ a0, w = .String a0 c := by
  cases w <;>
    first
      | exact Bool.noConfusion h
      | (rename_i o; cases o <;> exact Bool.noConfusion h)
      | (rename_i a0 c0
         exact ⟨a0, by rw [beq_iff_eq.mp (show (c0 == c) = true from h)]⟩)

theorem vbeq_inv_bytes {w : Value} {b : Nat} {c : List Nat}
    (h : vbeq w (.Bytes b c) = true) : ∃ a0, w = .Bytes a0 c := by
  cases w <;>
    first
      | exact Bool.noConfusion h
      | (rename_i o; cases o <;> exact Bool.noConfusion h)
      | (rename_i a0 c0
         exact ⟨a0, by rw [beq_iff_eq.mp (show (c0 == c) = true from h)]⟩)

theorem vbeq_inv_seq {w : Value} {b : Nat} {c : List Value}
    (h : vbeq w (.Seq b c) = true) :
    ∃ a0 c0, w = .Seq a0 c0 ∧ vbeqList c0 c = true := by
  cases w <;>
    first
      | exact Bool.noConfusion h
      | (rename_i o; cases o <;> exact Bool.noConfusion h)
      | (rename_i a0 c0
         exact ⟨a0, c0, rfl, h⟩)

theorem vbeq_inv_map {w : Value} {b kb : Nat} {ks vs : List Value}
    (h : vbeq w (.Map b kb ks vs) = true) :
    ∃ a0 ka0 ks0 vs0, w = .Map a0 ka0 ks0 vs0 ∧
      vbeqList ks0 ks = true ∧ vbeqList vs0 vs = true := by
  cases w <;>
    first
      | exact Bool.noConfusion h
      | (rename_i o; cases o <;> exact Bool.noConfusion h)
      | (rename_i a0 ka0 ks0 vs0
         have h' : (vbeqList ks0 ks && vbeqList vs0 vs) = true := h
         rw [Bool.and_eq_true] at h'
         exact ⟨a0, ka0, ks0, vs0, rfl, h'.1, h'.2⟩)

theorem dedup_blob_found {s : Dedup} (hw : s.wf) {e : Nat × List Nat}
    (he : e ∈ s.blobs) {p : Nat × List Nat} (hep : (e.2 == p.2) = true) :
    s.dedup_blob p = (e, s) := by
  unfold Dedup.dedup_blob
  rw [stored_lookup (fun x y => x == y)
    (fun h => by rw [beq_iff_eq.mp h]; simp)
    (fun h1 h2 => by rw [beq_iff_eq.mp h1]; exact h2)
    s.blobs (List.Pairwise.imp (fun h => beq_eq_false_iff_ne.mpr h) hw.1) e he p.2 hep]

theorem dedup_string_found {s : Dedup} (hw : s.wf) {e : Nat × List Char}
    (he : e ∈ s.strings) {p : Nat × List Char} (hep : (e.2 == p.2) = true) :
    s.dedup_string p = (e, s) := by
  unfold Dedup.dedup_string
  rw [stored_lookup (fun x y => x == y)
    (fun h => by rw [beq_iff_eq.mp h]; simp)
    (fun h1 h2 => by rw [beq_iff_eq.mp h1]; exact h2)
    s.strings (List.Pairwise.imp (fun h => beq_eq_false_iff_ne.mpr h) hw.2.1) e he p.2 hep]

theorem dedup_seq_found {s : Dedup} (hw : s.wf) {e : Nat × List Value}
    (he : e ∈ s.vectors) {p : Nat × List Value} (hep : vbeqList e.2 p.2 = true) :
    s.dedup_seq p = (e, s) := by
  unfold Dedup.dedup_seq
  rw [stored_lookup vbeqList (fun h => vbeqList_symm h)
    (fun h1 h2 => vbeqList_trans h1 h2)
    s.vectors hw.2.2.1 e he p.2 hep]

theorem dedup_map_found {s : Dedup} (hw : s.wf) {e : Nat × KVc}
    (he : e ∈ s.objects) {p : Nat × KVc} (hep : kvBeq e.2 p.2 = true) :
    s.dedup_map p = (e, s) := by
  unfold Dedup.dedup_map
  rw [stored_lookup kvBeq (fun h => kvBeq_symm h)
    (fun h1 h2 => kvBeq_trans h1 h2)
    s.objects hw.2.2.2.1 e he p.2 hep]

theorem dedup_stable_fuel : ∀ n : Nat,
    (∀ (s : Dedup) (w v : Value), sizeOf v ≤ n → s.wf → Canon s w → vbeq w v = true →
      (s.dedup v).2.sameSets s ∧
      (isShareable v = true → (s.dedup v).1 = w) ∧
      (isShareable v = false → (s.dedup v).1 = v)) ∧
    (∀ (s : Dedup) (ws vs : List Value), sizeOf vs ≤ n → s.wf →
      (∀ x ∈ ws, Canon s x) → vbeqList ws vs = true →
      (s.dedup_value_vec vs).2.sameSets s ∧
      vbeqList (s.dedup_value_vec vs).1 ws = true) := by
  intro n
  induction n with
  | zero =>
    constructor
    · intro s w v h
      have := value_sizeOf_pos v
      omega
    · intro s ws vs h
      have := list_sizeOf_pos vs
      omega
  | succ n ih =>
    obtain ⟨ihv, ihl⟩ := ih
    constructor
    · intro s w v hsz hw hcan hbeq
      cases v with
      | Unit => exact ⟨sameSets_refl s, fun h => Bool.noConfusion h, fun _ => rfl⟩
      | Bool x => exact ⟨sameSets_refl s, fun h => Bool.noConfusion h, fun _ => rfl⟩
      | U8 x => exact ⟨sameSets_refl s, fun h => Bool.noConfusion h, fun _ => rfl⟩
      | U16 x => exact ⟨sameSets_refl s, fun h => Bool.noConfusion h, fun _ => rfl⟩
      | U32 x => exact ⟨sameSets_refl s, fun h => Bool.noConfusion h, fun _ => rfl⟩
      | U64 x => exact ⟨sameSets_refl s, fun h => Bool.noConfusion h, fun _ => rfl⟩
      | I8 x => exact ⟨sameSets_refl s, fun h => Bool.noConfusion h, fun _ => rfl⟩
      | I16 x => exact ⟨sameSets_refl s, fun h => Bool.noConfusion h, fun _ => rfl⟩
      | I32 x => exact ⟨sameSets_refl s, fun h => Bool.noConfusion h, fun _ => rfl⟩
      | I64 x => exact ⟨sameSets_refl s, fun h => Bool.noConfusion h, fun _ => rfl⟩
      | F32 x => exact ⟨sameSets_refl s, fun h => Bool.noConfusion h, fun _ => rfl⟩
      | F64 x => exact ⟨sameSets_refl s, fun h => Bool.noConfusion h, fun _ => rfl⟩
      | Char x => exact ⟨sameSets_refl s, fun h => Bool.noConfusion h, fun _ => rfl⟩
      | Option x => exact ⟨sameSets_refl s, fun h => Bool.noConfusion h, fun _ => rfl⟩
      | Newtype x => exact ⟨sameSets_refl s, fun h => Bool.noConfusion h, fun _ => rfl⟩
      | String b c =>
        obtain ⟨a0, hw0⟩ := vbeq_inv_string hbeq
        subst hw0
        have he : (a0, c) ∈ s.strings := hcan
        have hfound := dedup_string_found hw he (p := (b, c)) (by simp)
        rw [dedup_string_eq hfound]
        exact ⟨sameSets_refl s, fun _ => rfl, fun h => Bool.noConfusion h⟩
      | Bytes b c =>
        obtain ⟨a0, hw0⟩ := vbeq_inv_bytes hbeq
        subst hw0
        have he : (a0, c) ∈ s.blobs := hcan
        have hfound := dedup_blob_found hw he (p := (b, c)) (by simp)
        rw [dedup_bytes_eq hfound]
        exact ⟨sameSets_refl s, fun _ => rfl, fun h => Bool.noConfusion h⟩
      | Seq b c =>
        obtain ⟨a0, c0, hw0, hc0⟩ := vbeq_inv_seq hbeq
        subst hw0
        have he : (a0, c0) ∈ s.vectors := hcan
        have hcanel : ∀ x ∈ c0, Canon s x := hw.2.2.2.2.1 (a0, c0) he
        rcases hvec : s.dedup_value_vec c with ⟨rs, s1⟩
        have hl := ihl s c0 c (by simp_arith at hsz; omega) hw hcanel hc0
        rw [hvec] at hl
        obtain ⟨hss1, hrs⟩ := hl
        rcases han : s1.alloc with ⟨n1, s2⟩
        have hss2 : s2.sameSets s :=
          sameSets_trans (sameSets_symm (alloc_sameSets han)) hss1
        have hw2 : s2.wf := wf_of_sameSets (sameSets_symm hss2) hw
        have he2 : (a0, c0) ∈ s2.vectors := (subsets_of_sameSets (sameSets_symm hss2)).2.2.1 _ he
        have hfound := dedup_seq_found hw2 he2 (p := (n1, rs)) (vbeqList_symm hrs)
        rw [dedup_seq_eq hvec han hfound]
        exact ⟨hss2, fun _ => rfl, fun h => Bool.noConfusion h⟩
      | Map b kb ks vs =>
        obtain ⟨a0, ka0, ks0, vs0, hw0, hks0, hvs0⟩ := vbeq_inv_map hbeq
        subst hw0
        have he : (a0, ((ka0, ks0), vs0)) ∈ s.objects := hcan
        obtain ⟨hkvec, hvcan⟩ := hw.2.2.2.2.2 (a0, ((ka0, ks0), vs0)) he
        have hkcan : ∀ x ∈ ks0, Canon s x := hw.2.2.2.2.1 (ka0, ks0) hkvec
        simp_arith at hsz
        rcases hksd : s.dedup_value_vec ks with ⟨rks, s1⟩
        have hl1 := ihl s ks0 ks (by omega) hw hkcan hks0
        rw [hksd] at hl1
        obtain ⟨hss1, hrks⟩ := hl1
        rcases han : s1.alloc with ⟨n1, s2⟩
        have hss2 : s2.sameSets s :=
          sameSets_trans (sameSets_symm (alloc_sameSets han)) hss1
        have hw2 : s2.wf := wf_of_sameSets (sameSets_symm hss2) hw
        rcases hvsd : s2.dedup_value_vec vs with ⟨rvs, s3⟩
        have hvcan2 : ∀ x ∈ vs0, Canon s2 x :=
          fun x hx => canon_mono (subsets_of_sameSets (sameSets_symm hss2)) (hvcan x hx)
        have hl2 := ihl s2 vs0 vs (by omega) hw2 hvcan2 hvs0
        rw [hvsd] at hl2
        obtain ⟨hss3', hrvs⟩ := hl2
        have hss3 : s3.sameSets s := sameSets_trans hss3' hss2
        have hw3 : s3.wf := wf_of_sameSets (sameSets_symm hss3) hw
        have hkvec3 : (ka0, ks0) ∈ s3.vectors :=
          (subsets_of_sameSets (sameSets_symm hss3)).2.2.1 _ hkvec
        have hfoundk := dedup_seq_found hw3 hkvec3 (p := (n1, rks)) (vbeqList_symm hrks)
        rcases ham : s3.alloc with ⟨m1, s5⟩
        have hss5 : s5.sameSets s :=
          sameSets_trans (sameSets_symm (alloc_sameSets ham)) hss3
        have hw5 : s5.wf := wf_of_sameSets (sameSets_symm hss5) hw
        have he5 : (a0, ((ka0, ks0), vs0)) ∈ s5.objects :=
          (subsets_of_sameSets (sameSets_symm hss5)).2.2.2 _ he
        have hfoundo := dedup_map_found hw5 he5 (p := (m1, ((ka0, ks0), rvs)))
          (by
            unfold kvBeq
            rw [vbeqList_refl, vbeqList_symm hrvs]
            rfl)
        rw [dedup_map_arm_eq hksd han hvsd hfoundk ham hfoundo]
        exact ⟨hss5, fun _ => rfl, fun h => Bool.noConfusion h⟩
    · intro s ws vs hsz hw hcan hbeq
      cases vs with
      | nil =>
        cases ws with
        | nil =>
          rw [dedup_vec_nil]
          exact ⟨sameSets_refl s, rfl⟩
        | cons w ws => exact Bool.noConfusion hbeq
      | cons v vs =>
        cases ws with
        | nil => exact Bool.noConfusion hbeq
        | cons w ws =>
          have hbeq' : (vbeq w v && vbeqList ws vs) = true := hbeq
          rw [Bool.and_eq_true] at hbeq'
          simp_arith at hsz
          rcases hx : s.dedup v with ⟨v', s1⟩
          have hv := ihv s w v (by omega) hw (hcan w (by simp)) hbeq'.1
          rw [hx] at hv
          obtain ⟨hss1, hsh, hnsh⟩ := hv
          have hw1 : s1.wf := wf_of_sameSets (sameSets_symm hss1) hw
          have hcan1 : ∀ x ∈ ws, Canon s1 x :=
            fun x hx' =>
              canon_mono (subsets_of_sameSets (sameSets_symm hss1)) (hcan x (by simp [hx']))
          rcases hxs : s1.dedup_value_vec vs with ⟨vs', s2⟩
          have hl := ihl s1 ws vs (by omega) hw1 hcan1 hbeq'.2
          rw [hxs] at hl
          obtain ⟨hss2, hvs'⟩ := hl
          rw [dedup_vec_cons_eq hx hxs]
          refine ⟨sameSets_trans hss2 hss1, ?_⟩
          show (vbeq v' w && vbeqList vs' ws) = true
          rw [hvs']
          cases hshv : isShareable v
          · have hv' : v' = v := hnsh hshv
            rw [hv', vbeq_symm hbeq'.1]
            rfl
          · have hv' : v' = w := hsh hshv
            rw [hv', vbeq_refl w]
            rfl

theorem dedup_stable {s : Dedup} {w v : Value} (hw : s.wf) (hcan : Canon s w)
    (hbeq : vbeq w v = true) :
    (s.dedup v).2.sameSets s ∧
    (isShareable v = true → (s.dedup v).1 = w) ∧
    (isShareable v = false → (s.dedup v).1 = v) :=
  (dedup_stable_fuel (sizeOf v)).1 s w v le_rfl hw hcan hbeq

theorem new_wf : Dedup.wf Dedup.new := by
  refine ⟨List.Pairwise.nil, List.Pairwise.nil, List.Pairwise.nil, List.Pairwise.nil, ?_, ?_⟩ <;>
    (intro p hp; exact absurd hp (List.not_mem_nil p))

/-! ## The `Value::map` constructor and its `BTreeMap` model

`Value::map` consumes a `BTreeMap<Value, Value>`; the map itself is built by
the callers through `.into_iter().collect()`, i.e. by inserting the pairs in
iteration order.  A `BTreeMap` is modelled as a strictly sorted association
list (sorted by `Ord::cmp` on the keys); `insert` keeps the stored key and
replaces the value when an equal key is already present. -/

def btreeInsert (p : Value × Value) : List (Value × Value) → List (Value × Value)
  | [] => [p]
  | q :: rest =>
    match Value.cmp p.1 q.1 with
    | .lt => p :: q :: rest
    | .eq => (q.1, p.2) :: rest
    | .gt => q :: btreeInsert p rest

/-- `BTreeMap::from_iter` / `.collect()`: insert the pairs in order. -/
def btreeOfList (l : List (Value × Value)) : List (Value × Value) :=
  l.foldl (fun acc p => btreeInsert p acc) []

/-- `Value::seq`: wrap an owned vector behind a fresh `Arc` (identity `a`). -/
def Value.seq (a : Nat) (value : List Value) : Value := .Seq a value

/-- `Value::string` (top level because the `Value.Char`/`Value.String`
constructors shadow the payload types inside the `Value` namespace). -/
def valueString (a : Nat) (value : List Char) : Value := .String a value

/-- `Value::bytes`. -/
def Value.bytes (a : Nat) (value : List Nat) : Value := .Bytes a value

/-- `Value::map`: the collection holds the `BTreeMap`'s keys and values in
key order, behind fresh `Arc`s with identities `a` (the `KV`) and `ka` (the
key vector). -/
def Value.map (a ka : Nat) (value : List (Value × Value)) : Value :=
  .Map a ka ((btreeOfList value).map Prod.fst) ((btreeOfList value).map Prod.snd)

/-- Strictly ascending keys (by `Value.cmp`). -/
def KeysSorted (l : List (Value × Value)) : Prop :=
  l.Pairwise (fun p q => Value.cmp p.1 q.1 = .lt)

/-- Pairwise distinct keys (no two compare `Equal`). -/
def KeysDistinct (l : List (Value × Value)) : Prop :=
  l.Pairwise (fun p q => Value.cmp p.1 q.1 ≠ .eq)

theorem btreeInsert_key_cases {p : Value × Value} :
    ∀ {l : List (Value × Value)} {x : Value × Value}, x ∈ btreeInsert p l →
    x = p ∨ x.1 = p.1 ∨ x.1 ∈ l.map Prod.fst := by
  intro l
  induction l with
  | nil =>
    intro x hx
    rcases List.mem_singleton.mp hx with h
    exact .inl h
  | cons q rest ih =>
    intro x hx
    show _ ∨ _ ∨ x.1 ∈ (q :: rest).map Prod.fst
    rw [List.map_cons]
    cases hc : Value.cmp p.1 q.1 <;> rw [show btreeInsert p (q :: rest)
        = (match Value.cmp p.1 q.1 with
          | .lt => p :: q :: rest
          | .eq => (q.1, p.2) :: rest
          | .gt => q :: btreeInsert p rest) from rfl, hc] at hx
    · rcases List.mem_cons.mp hx with h | h
      · exact .inl h
      · rcases List.mem_cons.mp h with h' | h'
        · exact .inr (.inr (by rw [h']; exact List.mem_cons_self _ _))
        · exact .inr (.inr (List.mem_cons_of_mem _ (List.mem_map_of_mem Prod.fst h')))
    · rcases List.mem_cons.mp hx with h | h
      · exact .inr (.inr (by rw [h]; exact List.mem_cons_self _ _))
      · exact .inr (.inr (List.mem_cons_of_mem _ (List.mem_map_of_mem Prod.fst h)))
    · rcases List.mem_cons.mp hx with h | h
      · exact .inr (.inr (by rw [h]; exact List.mem_cons_self _ _))
      · rcases ih h with h' | h' | h'
        · exact .inl h'
        · exact .inr (.inl h')
        · exact .inr (.inr (List.mem_cons_of_mem _ h'))

theorem btreeInsert_sorted {p : Value × Value} :
    ∀ {l : List (Value × Value)}, KeysSorted l → KeysSorted (btreeInsert p l) := by
  intro l
  induction l with
  | nil =>
    intro _
    exact List.Pairwise.cons (fun x hx => absurd hx (List.not_mem_nil x)) List.Pairwise.nil
  | cons q rest ih =>
    intro h
    obtain ⟨hq, hrest⟩ := List.pairwise_cons.mp h
    show KeysSorted (match Value.cmp p.1 q.1 with
      | .lt => p :: q :: rest
      | .eq => (q.1, p.2) :: rest
      | .gt => q :: btreeInsert p rest)
    cases hc : Value.cmp p.1 q.1
    · refine List.Pairwise.cons ?_ h
      intro x hx
      rcases List.mem_cons.mp hx with h' | h'
      · rw [h']; exact hc
      · exact vcmp_lt_trans hc (hq x h')
    · exact List.Pairwise.cons (fun x hx => hq x hx) hrest
    · refine List.Pairwise.cons ?_ (ih hrest)
      intro x hx
      have hqp : Value.cmp q.1 p.1 = .lt := by
        have hs := vcmp_swap p.1 q.1
        rw [hc] at hs
        exact ordering_swap_inj hs.symm
      rcases btreeInsert_key_cases hx with h' | h' | h'
      · rw [h']; exact hqp
      · rw [h']; exact hqp
      · rcases List.mem_map.mp h' with ⟨r, hr, hrx⟩
        rw [← hrx]
        exact hq r hr

theorem btreeOfList_sorted (l : List (Value × Value)) : KeysSorted (btreeOfList l) := by
  suffices h : ∀ (l acc : List (Value × Value)), KeysSorted acc →
      KeysSorted (l.foldl (fun acc p => btreeInsert p acc) acc) by
    exact h l [] List.Pairwise.nil
  intro l
  induction l with
  | nil => intro acc hacc; exact hacc
  | cons p l ih =>
    intro acc hacc
    exact ih (btreeInsert p acc) (btreeInsert_sorted hacc)

theorem btreeInsert_perm {p : Value × Value} :
    ∀ {l : List (Value × Value)}, (∀ q ∈ l, Value.cmp p.1 q.1 ≠ .eq) →
    List.Perm (btreeInsert p l) (p :: l) := by
  intro l
  induction l with
  | nil => intro _; exact List.Perm.refl _
  | cons q rest ih =>
    intro hne
    show List.Perm (match Value.cmp p.1 q.1 with
      | .lt => p :: q :: rest
      | .eq => (q.1, p.2) :: rest
      | .gt => q :: btreeInsert p rest) _
    cases hc : Value.cmp p.1 q.1
    · exact List.Perm.refl _
    · exact absurd hc (hne q (List.mem_cons_self q rest))
    · exact (List.Perm.cons q (ih (fun r hr => hne r (List.mem_cons_of_mem q hr)))).trans
        (List.Perm.swap p q rest)

theorem cmp_ne_eq_symmetric : Symmetric (fun p q : Value × Value => Value.cmp p.1 q.1 ≠ .eq) := by
  intro p q h hc
  apply h
  have hs := vcmp_swap p.1 q.1
  rw [hc] at hs
  exact hs

theorem btree_fold_perm : ∀ (l acc : List (Value × Value)),
    (l ++ acc).Pairwise (fun p q => Value.cmp p.1 q.1 ≠ .eq) →
    List.Perm (l.foldl (fun acc p => btreeInsert p acc) acc) (l ++ acc) := by
  intro l
  induction l with
  | nil => intro acc _; exact List.Perm.refl _
  | cons p l ih =>
    intro acc hpw
    have hphead : ∀ q ∈ l ++ acc, Value.cmp p.1 q.1 ≠ .eq :=
      (List.pairwise_cons.mp hpw).1
    have hpacc : ∀ q ∈ acc, Value.cmp p.1 q.1 ≠ .eq :=
      fun q hq => hphead q (List.mem_append_right l hq)
    have hins : List.Perm (btreeInsert p acc) (p :: acc) := btreeInsert_perm hpacc
    have hperm2 : List.Perm (l ++ btreeInsert p acc) (l ++ p :: acc) :=
      List.Perm.append_left l hins
    have hperm3 : List.Perm (l ++ p :: acc) (p :: (l ++ acc)) := List.perm_middle
    have hpw' : (l ++ btreeInsert p acc).Pairwise (fun p q => Value.cmp p.1 q.1 ≠ .eq) := by
      refine (List.Perm.pairwise_iff (fun h => cmp_ne_eq_symmetric h)
        (hperm2.trans hperm3)).mpr ?_
      exact hpw
    show List.Perm (l.foldl (fun acc p => btreeInsert p acc) (btreeInsert p acc)) _
    exact (ih (btreeInsert p acc) hpw').trans (hperm2.trans hperm3)

/-- Antisymmetry instance for strict key order, needed to identify two sorted
permutations of the same pairs. -/
theorem keylt_antisymm (a b : Value × Value) (h1 : Value.cmp a.1 b.1 = .lt)
    (h2 : Value.cmp b.1 a.1 = .lt) : a = b := by
  have hs := vcmp_swap a.1 b.1
  rw [h1, h2] at hs
  exact Ordering.noConfusion hs

/-- Building via `Value::map`'s `BTreeMap` from any two orderings of the same
distinct-keyed pairs yields the same sorted association list. -/
theorem btreeOfList_perm_eq {l1 l2 : List (Value × Value)}
    (hperm : List.Perm l1 l2) (hdist : KeysDistinct l1) :
    btreeOfList l1 = btreeOfList l2 := by
  have hdist2 : KeysDistinct l2 :=
    (List.Perm.pairwise_iff (fun h => cmp_ne_eq_symmetric h) hperm).mp hdist
  have hp1 : List.Perm (btreeOfList l1) l1 := by
    have := btree_fold_perm l1 [] (by rw [List.append_nil]; exact hdist)
    rwa [List.append_nil] at this
  have hp2 : List.Perm (btreeOfList l2) l2 := by
    have := btree_fold_perm l2 [] (by rw [List.append_nil]; exact hdist2)
    rwa [List.append_nil] at this
  have hs1 := btreeOfList_sorted l1
  have hs2 := btreeOfList_sorted l2
  haveI : IsAntisymm (Value × Value) (fun p q => Value.cmp p.1 q.1 = .lt) :=
    ⟨keylt_antisymm⟩
  exact List.eq_of_perm_of_sorted (hp1.trans (hperm.trans hp2.symm)) hs1 hs2

theorem strings_unique {t : Dedup} (hw : t.wf) {a1 a2 : Nat} {c : List Char}
    (h1 : (a1, c) ∈ t.strings) (h2 : (a2, c) ∈ t.strings) : a1 = a2 := by
  by_contra hne
  have hsym : Symmetric (fun p q : Nat × List Char => p.2 ≠ q.2) :=
    fun p q h hc => h hc.symm
  have hpr : (a1, c) ≠ (a2, c) := fun h => hne (congrArg Prod.fst h)
  exact List.Pairwise.forall hsym hw.2.1 h1 h2 hpr rfl

theorem isShareable_eq_of_disc {a b : Value} (h : a.discriminant = b.discriminant) :
    isShareable a = isShareable b := by
  cases a <;> cases b <;> first | rfl | (simp [Value.discriminant] at h)

theorem disc_le_18 (v : Value) : v.discriminant ≤ 18 := by
  cases v <;> simp [Value.discriminant]

/-! ## The claims -/

/-- C1 (counterexample): feeding `Some("a")` to `dedup` on a fresh session
returns the value unchanged and registers nothing — the `strings` set stays
empty even though the optional payload contains a shareable string, so the
engine does NOT recurse into optional payloads (they hit the final
catch-all arm of `Deduplicator::dedup`). -/
theorem c1_counterexample :
    Dedup.new.dedup (.Option (some (valueString 5 ['a']))) =
      (.Option (some (valueString 5 ['a'])), Dedup.new) ∧
    (Dedup.new.dedup (.Option (some (valueString 5 ['a'])))).2.strings = [] := ⟨rfl, rfl⟩

/-- C1 (amended): for every optional value and every newtype value fed to
`dedup` with any session, the engine passes the wrapper through unchanged —
it does not recurse into the contained payload, so no sub-value inside an
optional or newtype is looked up or registered in any content set, and the
wrapper itself is never shared. -/
theorem c1_option_newtype_passthrough (s : Dedup) (v : Option Value) (w : Value) :
    s.dedup (.Option v) = (.Option v, s) ∧ s.dedup (.Newtype w) = (.Newtype w, s) :=
  ⟨rfl, rfl⟩

/-- C2: `Ord::cmp for Value` is antisymmetric/total (swap law) and
transitive; `PartialEq` holds exactly when `cmp` returns `Equal`; and equal
values produce identical hasher write traces, hence equal hashes under every
hasher. -/
theorem c2_total_order_consistency (a b c : Value) :
    (Value.cmp a b = (Value.cmp b a).swap) ∧
    (Value.cmp a b = .lt → Value.cmp b c = .lt → Value.cmp a c = .lt) ∧
    (vbeq a b = true ↔ Value.cmp a b = .eq) ∧
    (vbeq a b = true → Value.hashTrace a = Value.hashTrace b) :=
  ⟨vcmp_swap a b, fun h1 h2 => vcmp_lt_trans h1 h2, vbeq_iff_vcmp_eq a b,
    fun h => vbeq_hash_congr h⟩

/-- Witness for C2 at concrete inputs. -/
theorem c2_total_order_consistency_witness :
    Value.cmp (.U8 1) (.U8 5) = .lt ∧
    Value.hashTrace (.Bool true) = Value.hashTrace (.Bool true) :=
  ⟨(c2_total_order_consistency (.U8 1) (.U8 3) (.U8 5)).2.1 (by decide) (by decide),
   (c2_total_order_consistency (.Bool true) (.Bool true) (.Bool true)).2.2.2 (by decide)⟩

/-- C3: for every value and every session state, `dedup` returns a value
structurally equal (by `Value`'s `PartialEq`) to its input; the operation is
a total function, so there is no failure case. -/
theorem c3_dedup_structurally_equal (s : Dedup) (v : Value) :
    vbeq (s.dedup v).1 v = true :=
  dedup_returns_equal s v

/-- C4: starting from a fresh session, running `dedup` a second time on the
result with the resulting session leaves all four content sets exactly as
they were (no new entry in `blobs`/`strings`/`vectors`/`objects`) and
returns the first result itself (hence in particular a structurally equal
value). -/
theorem c4_dedup_idempotent (v : Value) :
    ((Dedup.new.dedup v).2.dedup (Dedup.new.dedup v).1).2.sameSets (Dedup.new.dedup v).2 ∧
    ((Dedup.new.dedup v).2.dedup (Dedup.new.dedup v).1).1 = (Dedup.new.dedup v).1 := by
  obtain ⟨hw1, hsub, hcan⟩ := dedup_wf Dedup.new v new_wf
  have hst := dedup_stable hw1 hcan (vbeq_refl (Dedup.new.dedup v).1)
  refine ⟨hst.1, ?_⟩
  cases hsh : isShareable (Dedup.new.dedup v).1
  · exact hst.2.2 hsh
  · exact hst.2.1 hsh

/-- C5: (i) the concrete sequence holding two structurally equal strings
comes out of a fresh session with both occurrences being the same shared
instance (identical `Arc` identity `1`); (ii) in general, in the result of
canonicalizing a sequence through any well-formed session, any two string
elements with equal content carry the same `Arc` identity; (iii) in
general, canonicalizing two structurally equal values of a shareable shape
through one session (children before parent, as `dedup` itself does) yields
the identical shared instance. -/
theorem c5_maximal_sharing :
    (Dedup.new.dedup (Value.seq 7 [valueString 1 ['a'], valueString 2 ['a']])).1
        = Value.seq 0 [valueString 1 ['a'], valueString 1 ['a']] ∧
    (∀ (s : Dedup), s.wf → ∀ (a : Nat) (xs : List Value) (b : Nat) (ys : List Value),
      (s.dedup (.Seq a xs)).1 = .Seq b ys →
      ∀ (a1 a2 : Nat) (c : List Char), .String a1 c ∈ ys → .String a2 c ∈ ys → a1 = a2) ∧
    (∀ (s : Dedup) (v1 v2 : Value), s.wf → vbeq v1 v2 = true → isShareable v1 = true →
      ((s.dedup v1).2.dedup v2).1 = (s.dedup v1).1) := by
  refine ⟨rfl, ?_, ?_⟩
  · intro s hw a xs b ys hres a1 a2 c h1 h2
    obtain ⟨hw', hsub, hcan⟩ := dedup_wf s (.Seq a xs) hw
    rw [hres] at hcan
    have hmem : (b, ys) ∈ (s.dedup (.Seq a xs)).2.vectors := hcan
    have hel := hw'.2.2.2.2.1 (b, ys) hmem
    have hc1 : (a1, c) ∈ (s.dedup (.Seq a xs)).2.strings := hel (.String a1 c) h1
    have hc2 : (a2, c) ∈ (s.dedup (.Seq a xs)).2.strings := hel (.String a2 c) h2
    exact strings_unique hw' hc1 hc2
  · intro s v1 v2 hw hbeq hsh
    obtain ⟨hw', hsub, hcan⟩ := dedup_wf s v1 hw
    have hr1 : vbeq (s.dedup v1).1 v1 = true := dedup_returns_equal s v1
    have hr1v2 : vbeq (s.dedup v1).1 v2 = true := vbeq_trans hr1 hbeq
    have hshv2 : isShareable v2 = true := by
      rw [← isShareable_eq_of_disc (vbeq_disc hbeq)]
      exact hsh
    exact (dedup_stable hw' hcan hr1v2).2.1 hshv2

/-- Witness for C5 at concrete inputs: two equal strings deduplicated one
after the other through a fresh session produce the identical instance. -/
theorem c5_maximal_sharing_witness :
    ((Dedup.new.dedup (valueString 1 ['a'])).2.dedup (valueString 2 ['a'])).1
      = (Dedup.new.dedup (valueString 1 ['a'])).1 :=
  c5_maximal_sharing.2.2 Dedup.new (valueString 1 ['a']) (valueString 2 ['a'])
    new_wf (by decide) rfl

/-- C6: values of different variants are never equal and compare by the
fixed discriminant rank (`scmp` on `Value.discriminant`); the rank assigns
bool 0, then the unsigned integers 1–4 ascending by width, the signed
integers 5–8, the two float widths 9–10, char 11, string 12, unit 13,
optional 14, newtype 15, sequence 16, collection 17, and byte-blob 18 last;
in particular any boolean compares `Less` than any 8-bit unsigned integer
and any byte blob compares `Greater` than any value of any other variant. -/
theorem c6_discriminant_rank (a b : Value) :
    (a.discriminant ≠ b.discriminant →
      vbeq a b = false ∧ Value.cmp a b = scmp a.discriminant b.discriminant) ∧
    (∀ (x : Bool) (n : Nat), Value.cmp (.Bool x) (.U8 n) = .lt) ∧
    (∀ (ab : Nat) (cb : List Nat), a.discriminant ≠ 18 → Value.cmp (.Bytes ab cb) a = .gt) ∧
    ((∀ x, (Value.Bool x).discriminant = 0) ∧ (∀ n, (Value.U8 n).discriminant = 1) ∧
     (∀ n, (Value.U16 n).discriminant = 2) ∧ (∀ n, (Value.U32 n).discriminant = 3) ∧
     (∀ n, (Value.U64 n).discriminant = 4) ∧ (∀ n, (Value.I8 n).discriminant = 5) ∧
     (∀ n, (Value.I16 n).discriminant = 6) ∧ (∀ n, (Value.I32 n).discriminant = 7) ∧
     (∀ n, (Value.I64 n).discriminant = 8) ∧ (∀ x, (Value.F32 x).discriminant = 9) ∧
     (∀ x, (Value.F64 x).discriminant = 10) ∧ (∀ c, (Value.Char c).discriminant = 11) ∧
     (∀ x y, (Value.String x y).discriminant = 12) ∧ (Value.Unit.discriminant = 13) ∧
     (∀ v, (Value.Option v).discriminant = 14) ∧ (∀ v, (Value.Newtype v).discriminant = 15) ∧
     (∀ x y, (Value.Seq x y).discriminant = 16) ∧
     (∀ x y z w, (Value.Map x y z w).discriminant = 17) ∧
     (∀ x y, (Value.Bytes x y).discriminant = 18)) := by
  refine ⟨fun hd => ⟨vbeq_cross a b hd, vcmp_cross a b hd⟩, fun x n => rfl, ?_,
    fun _ => rfl, fun _ => rfl, fun _ => rfl, fun _ => rfl, fun _ => rfl, fun _ => rfl,
    fun _ => rfl, fun _ => rfl, fun _ => rfl, fun _ => rfl, fun _ => rfl, fun _ => rfl,
    fun _ _ => rfl, rfl, fun _ => rfl, fun _ => rfl, fun _ _ => rfl, fun _ _ _ _ => rfl,
    fun _ _ => rfl⟩
  intro ab cb hd
  have hlt : a.discriminant < 18 := Nat.lt_of_le_of_ne (disc_le_18 a) hd
  rw [vcmp_cross (.Bytes ab cb) a (by
    show (18 : Nat) ≠ a.discriminant
    omega)]
  show scmp 18 a.discriminant = .gt
  exact (scmp_gt_iff (18 : Nat) a.discriminant).mpr hlt

/-- Witness for C6 at concrete inputs. -/
theorem c6_discriminant_rank_witness :
    vbeq (.Bool true) (.U8 0) = false ∧ Value.cmp (.Bytes 5 [1]) .Unit = .gt :=
  ⟨((c6_discriminant_rank (.Bool true) (.U8 0)).1 (by decide)).1,
   (c6_discriminant_rank .Unit .Unit).2.2.1 5 [1] (by decide)⟩

/-- C7: collection equality is positional — two collections are equal
exactly when their key vectors are elementwise equal in order and their
value vectors are elementwise equal in order; collections holding the same
pairs in different positional orders are therefore not equal, and
deduplication never merges two structurally unequal values: canonicalizing
both through one session yields results that are still unequal (the
concrete reordered collections come out as two distinct registered objects
with distinct `Arc` identities `1` and `3`). -/
theorem c7_positional_collection_equality :
    (∀ (a ka b kb : Nat) (ks vs ks' vs' : List Value),
      vbeq (.Map a ka ks vs) (.Map b kb ks' vs') = (vbeqList ks ks' && vbeqList vs vs')) ∧
    (∀ (a ka b kb : Nat) (ks vs ks' vs' : List Value), vbeqList ks ks' = false →
      vbeq (.Map a ka ks vs) (.Map b kb ks' vs') = false) ∧
    (∀ (s : Dedup) (v1 v2 : Value), vbeq v1 v2 = false →
      vbeq (s.dedup v1).1 ((s.dedup v1).2.dedup v2).1 = false) ∧
    ((Dedup.new.dedup (.Seq 104 [.Map 100 101 [.U8 0, .U8 1] [.Bool true, .Bool false],
        .Map 102 103 [.U8 1, .U8 0] [.Bool false, .Bool true]])).1
      = .Seq 4 [.Map 1 0 [.U8 0, .U8 1] [.Bool true, .Bool false],
        .Map 3 2 [.U8 1, .U8 0] [.Bool false, .Bool true]] ∧
     (Dedup.new.dedup (.Seq 104 [.Map 100 101 [.U8 0, .U8 1] [.Bool true, .Bool false],
        .Map 102 103 [.U8 1, .U8 0] [.Bool false, .Bool true]])).2.objects.length = 2) := by
  refine ⟨fun _ _ _ _ _ _ _ _ => rfl, ?_, ?_, rfl, rfl⟩
  · intro a ka b kb ks vs ks' vs' h
    show (vbeqList ks ks' && vbeqList vs vs') = false
    rw [h]
    rfl
  · intro s v1 v2 hne
    cases hb : vbeq (s.dedup v1).1 ((s.dedup v1).2.dedup v2).1
    · rfl
    · have h1 : vbeq (s.dedup v1).1 v1 = true := dedup_returns_equal s v1
      have h2 : vbeq ((s.dedup v1).2.dedup v2).1 v2 = true :=
        dedup_returns_equal (s.dedup v1).2 v2
      have : vbeq v1 v2 = true :=
        vbeq_trans (vbeq_symm h1) (vbeq_trans hb h2)
      rw [this] at hne
      exact Bool.noConfusion hne

/-- Witness for C7 at concrete inputs: the two reordered collections are not
merged (their canonicalized forms remain unequal). -/
theorem c7_positional_collection_equality_witness :
    vbeq (Dedup.new.dedup (.Map 100 101 [.U8 0, .U8 1] [.Bool true, .Bool false])).1
      (((Dedup.new.dedup (.Map 100 101 [.U8 0, .U8 1] [.Bool true, .Bool false])).2.dedup
        (.Map 102 103 [.U8 1, .U8 0] [.Bool false, .Bool true])).1) = false :=
  c7_positional_collection_equality.2.2.1 Dedup.new
    (.Map 100 101 [.U8 0, .U8 1] [.Bool true, .Bool false])
    (.Map 102 103 [.U8 1, .U8 0] [.Bool false, .Bool true]) (by decide)

/-- C8: float comparison/equality/hashing follow the `ordered_float` total
order over the bit patterns: every NaN bit pattern is equal to itself,
compares `Equal` to itself and hashes equal to itself, and any two float
values of the same width are comparable (`cmp` always returns one of the
three orderings — NaN is not unordered here). -/
theorem c8_float_total_order :
    (∀ x : Fin (2 ^ 32), fIsNaN 32 23 x.val = true →
      vbeq (.F32 x) (.F32 x) = true ∧ Value.cmp (.F32 x) (.F32 x) = .eq ∧
      Value.hashTrace (.F32 x) = Value.hashTrace (.F32 x)) ∧
    (∀ x : Fin (2 ^ 64), fIsNaN 64 52 x.val = true →
      vbeq (.F64 x) (.F64 x) = true ∧ Value.cmp (.F64 x) (.F64 x) = .eq ∧
      Value.hashTrace (.F64 x) = Value.hashTrace (.F64 x)) ∧
    (∀ x y : Fin (2 ^ 32), Value.cmp (.F32 x) (.F32 y) = .lt ∨
      Value.cmp (.F32 x) (.F32 y) = .eq ∨ Value.cmp (.F32 x) (.F32 y) = .gt) ∧
    (∀ x y : Fin (2 ^ 64), Value.cmp (.F64 x) (.F64 y) = .lt ∨
      Value.cmp (.F64 x) (.F64 y) = .eq ∨ Value.cmp (.F64 x) (.F64 y) = .gt) := by
  refine ⟨?_, ?_, ?_, ?_⟩
  · intro x _
    exact ⟨vbeq_refl (.F32 x), vcmp_self (.F32 x), rfl⟩
  · intro x _
    exact ⟨vbeq_refl (.F64 x), vcmp_self (.F64 x), rfl⟩
  · intro x y
    cases h : Value.cmp (.F32 x) (.F32 y)
    · exact .inl rfl
    · exact .inr (.inl rfl)
    · exact .inr (.inr rfl)
  · intro x y
    cases h : Value.cmp (.F64 x) (.F64 y)
    · exact .inl rfl
    · exact .inr (.inl rfl)
    · exact .inr (.inr rfl)

/-- Witness for C8 at the canonical quiet-NaN bit patterns. -/
theorem c8_float_total_order_witness :
    vbeq (.F32 (⟨0x7FC00000, by norm_num⟩ : Fin (2 ^ 32)))
      (.F32 (⟨0x7FC00000, by norm_num⟩ : Fin (2 ^ 32))) = true ∧
    Value.cmp (.F64 (⟨0x7FF8000000000000, by norm_num⟩ : Fin (2 ^ 64)))
      (.F64 (⟨0x7FF8000000000000, by norm_num⟩ : Fin (2 ^ 64))) = .eq :=
  ⟨(c8_float_total_order.1 (⟨0x7FC00000, by norm_num⟩ : Fin (2 ^ 32)) (by decide)).1,
   (c8_float_total_order.2.1 (⟨0x7FF8000000000000, by norm_num⟩ : Fin (2 ^ 64))
      (by decide)).2.1⟩

/-- C9: canonicalizing any scalar value (unit, boolean, the eight integer
variants, the two float variants, char) returns the value itself and leaves
the session completely unchanged — nothing is registered in any of the four
content sets. -/
theorem c9_scalar_passthrough (s : Dedup) :
    s.dedup .Unit = (.Unit, s) ∧
    (∀ x : Bool, s.dedup (.Bool x) = (.Bool x, s)) ∧
    (∀ n : Nat, s.dedup (.U8 n) = (.U8 n, s)) ∧
    (∀ n : Nat, s.dedup (.U16 n) = (.U16 n, s)) ∧
    (∀ n : Nat, s.dedup (.U32 n) = (.U32 n, s)) ∧
    (∀ n : Nat, s.dedup (.U64 n) = (.U64 n, s)) ∧
    (∀ n : Int, s.dedup (.I8 n) = (.I8 n, s)) ∧
    (∀ n : Int, s.dedup (.I16 n) = (.I16 n, s)) ∧
    (∀ n : Int, s.dedup (.I32 n) = (.I32 n, s)) ∧
    (∀ n : Int, s.dedup (.I64 n) = (.I64 n, s)) ∧
    (∀ x : Fin (2 ^ 32), s.dedup (.F32 x) = (.F32 x, s)) ∧
    (∀ x : Fin (2 ^ 64), s.dedup (.F64 x) = (.F64 x, s)) ∧
    (∀ c : Char, s.dedup (.Char c) = (.Char c, s)) :=
  ⟨rfl, fun _ => rfl, fun _ => rfl, fun _ => rfl, fun _ => rfl, fun _ => rfl, fun _ => rfl,
   fun _ => rfl, fun _ => rfl, fun _ => rfl, fun _ => rfl, fun _ => rfl, fun _ => rfl⟩

/-- C10: every collection built through `Value::map` lists its keys in
strictly ascending `Value` order (hence without duplicate keys), its key
and value sequences have equal length, and building from any reordering of
the same distinct-keyed pairs yields the very same collection. -/
theorem c10_value_map_invariants :
    (∀ (a ka : Nat) (l : List (Value × Value)),
      ((btreeOfList l).map Prod.fst).Pairwise (fun x y => Value.cmp x y = .lt) ∧
      Value.map a ka l =
        .Map a ka ((btreeOfList l).map Prod.fst) ((btreeOfList l).map Prod.snd) ∧
      ((btreeOfList l).map Prod.fst).length = ((btreeOfList l).map Prod.snd).length) ∧
    (∀ (a ka : Nat) (l1 l2 : List (Value × Value)), List.Perm l1 l2 → KeysDistinct l1 →
      Value.map a ka l1 = Value.map a ka l2) := by
  constructor
  · intro a ka l
    refine ⟨?_, rfl, by rw [List.length_map, List.length_map]⟩
    rw [List.pairwise_map]
    exact btreeOfList_sorted l
  · intro a ka l1 l2 hperm hdist
    unfold Value.map
    rw [btreeOfList_perm_eq hperm hdist]

/-- Witness for C10: inserting the same two distinct-keyed pairs in either
order builds the same collection. -/
theorem c10_value_map_invariants_witness :
    Value.map 0 0 [(.U8 0, .Unit), (.U8 1, .Bool true)]
      = Value.map 0 0 [(.U8 1, .Bool true), (.U8 0, .Unit)] :=
  c10_value_map_invariants.2 0 0 [(.U8 0, .Unit), (.U8 1, .Bool true)]
    [(.U8 1, .Bool true), (.U8 0, .Unit)]
    (List.Perm.swap (Value.U8 1, Value.Bool true) (Value.U8 0, Value.Unit) [])
    (by
      show List.Pairwise (fun p q => Value.cmp p.1 q.1 ≠ .eq)
        [(Value.U8 0, Value.Unit), (Value.U8 1, Value.Bool true)]
      refine List.Pairwise.cons ?_
        (List.Pairwise.cons (fun y hy => absurd hy (List.not_mem_nil y)) List.Pairwise.nil)
      intro y hy
      have hy' := List.mem_singleton.mp hy
      subst hy'
      decide)
